import Mathlib

/-!
The bugsnag electron client sync: the crash-resilient client-state cache.

A shallow embedding of `packages/plugin-electron-client-sync/src/bugsnag_electron_client_sync.c`.

* The process-wide `g_context` becomes an explicit `becs_context` value that every `becs_*`
  function takes and returns.
* A `const char *` is a `String` (one `Char` per C `char`), `NULL` is `none`.
* The mutex and the signal handlers are not part of the model (single-threaded view); memory
  allocation is taken to succeed.
* The vendored JSON library (`deps/parson`) is modelled: its operations on objects and arrays
  are the functions `json_*` below; its parser and its serializer are parameters (`Parson`), so
  every theorem holds for whatever text format they implement.
-/

/-! ## JSON values (parson's `JSON_Value`) -/

/-- Modelled from the spec: parson's `JSON_Value` tree (object / array / string / number / bool /
null).  An object is the sequence of its (name, value) cells in storage order, an array the
sequence of its items.  A number carries the value of the C double as a rational. -/
inductive JSON_Value where
  | null
  | string (s : String)
  | number (d : Rat)
  | object (o : List (String × JSON_Value))
  | array (a : List JSON_Value)
  | boolean (b : Bool)

/-- Modelled from the spec: the cells of a parson `JSON_Object`. -/
abbrev JSON_Object := List (String × JSON_Value)

/-- Modelled from the spec: the items of a parson `JSON_Array`. -/
abbrev JSON_Array := List JSON_Value

namespace JSON_Value

mutual
/-- Structural equality of JSON values is decidable. -/
def decEq : (a b : JSON_Value) → Decidable (a = b)
  | null, null => isTrue rfl
  | string a, string b =>
    if h : a = b then isTrue (by rw [h]) else isFalse (by intro e; exact h (string.inj e))
  | number a, number b =>
    if h : a = b then isTrue (by rw [h]) else isFalse (by intro e; exact h (number.inj e))
  | boolean a, boolean b =>
    if h : a = b then isTrue (by rw [h]) else isFalse (by intro e; exact h (boolean.inj e))
  | object a, object b =>
    match decEqObj a b with
    | isTrue h => isTrue (by rw [h])
    | isFalse h => isFalse (by intro e; exact h (object.inj e))
  | array a, array b =>
    match decEqArr a b with
    | isTrue h => isTrue (by rw [h])
    | isFalse h => isFalse (by intro e; exact h (array.inj e))
  | null, string _ => isFalse (by intro e; cases e)
  | null, number _ => isFalse (by intro e; cases e)
  | null, object _ => isFalse (by intro e; cases e)
  | null, array _ => isFalse (by intro e; cases e)
  | null, boolean _ => isFalse (by intro e; cases e)
  | string _, null => isFalse (by intro e; cases e)
  | string _, number _ => isFalse (by intro e; cases e)
  | string _, object _ => isFalse (by intro e; cases e)
  | string _, array _ => isFalse (by intro e; cases e)
  | string _, boolean _ => isFalse (by intro e; cases e)
  | number _, null => isFalse (by intro e; cases e)
  | number _, string _ => isFalse (by intro e; cases e)
  | number _, object _ => isFalse (by intro e; cases e)
  | number _, array _ => isFalse (by intro e; cases e)
  | number _, boolean _ => isFalse (by intro e; cases e)
  | object _, null => isFalse (by intro e; cases e)
  | object _, string _ => isFalse (by intro e; cases e)
  | object _, number _ => isFalse (by intro e; cases e)
  | object _, array _ => isFalse (by intro e; cases e)
  | object _, boolean _ => isFalse (by intro e; cases e)
  | array _, null => isFalse (by intro e; cases e)
  | array _, string _ => isFalse (by intro e; cases e)
  | array _, number _ => isFalse (by intro e; cases e)
  | array _, object _ => isFalse (by intro e; cases e)
  | array _, boolean _ => isFalse (by intro e; cases e)
  | boolean _, null => isFalse (by intro e; cases e)
  | boolean _, string _ => isFalse (by intro e; cases e)
  | boolean _, number _ => isFalse (by intro e; cases e)
  | boolean _, object _ => isFalse (by intro e; cases e)
  | boolean _, array _ => isFalse (by intro e; cases e)
/-- Equality of object cell sequences. -/
def decEqObj : (a b : List (String × JSON_Value)) → Decidable (a = b)
  | [], [] => isTrue rfl
  | [], _ :: _ => isFalse (by intro e; cases e)
  | _ :: _, [] => isFalse (by intro e; cases e)
  | (k, v) :: xs, (k2, v2) :: ys =>
    if hk : k = k2 then
      match decEq v v2 with
      | isTrue hv =>
        match decEqObj xs ys with
        | isTrue ht => isTrue (by rw [hk, hv, ht])
        | isFalse ht => isFalse (by intro e; injection e with _ e2; exact ht e2)
      | isFalse hv =>
        isFalse (by intro e; injection e with e1 _; injection e1 with _ e3; exact hv e3)
    else isFalse (by intro e; injection e with e1 _; injection e1 with e3 _; exact hk e3)
/-- Equality of array item sequences. -/
def decEqArr : (a b : List JSON_Value) → Decidable (a = b)
  | [], [] => isTrue rfl
  | [], _ :: _ => isFalse (by intro e; cases e)
  | _ :: _, [] => isFalse (by intro e; cases e)
  | v :: xs, v2 :: ys =>
    match decEq v v2 with
    | isTrue hv =>
      match decEqArr xs ys with
      | isTrue ht => isTrue (by rw [hv, ht])
      | isFalse ht => isFalse (by intro e; injection e with _ e2; exact ht e2)
    | isFalse hv => isFalse (by intro e; injection e with e1 _; exact hv e1)
end

instance : DecidableEq JSON_Value := decEq

end JSON_Value

/-! ## parson operations used by the cache -/

/-- Modelled from the spec: parson's `json_parse_string` and its serializer
(`json_serialize_to_buffer_r`, the text both `json_serialization_size` and
`json_serialize_to_buffer` produce), which are not among the sources.  `json_parse_string`
returns `none` for text that is not valid JSON (C `NULL`); `json_serialize` is the serialized
text without the trailing terminator (serializing a parsed or constructed value does not
fail). -/
structure Parson where
  json_parse_string : String → Option JSON_Value
  json_serialize : JSON_Value → List Char

/-- Modelled from the spec: parson's `json_value_get_object` (`NULL` unless the value is an
object). -/
def json_value_get_object : Option JSON_Value → Option JSON_Object
  | some (JSON_Value.object o) => some o
  | _ => none

/-- Modelled from the spec: parson's `json_value_get_array` (`NULL` unless the value is an
array). -/
def json_value_get_array : Option JSON_Value → Option JSON_Array
  | some (JSON_Value.array a) => some a
  | _ => none

/-- Modelled from the spec: parson's `json_object_get_value`, the value of the first cell
called `name`. -/
def json_object_get_value : JSON_Object → String → Option JSON_Value
  | [], _ => none
  | (k, v) :: rest, name => if k = name then some v else json_object_get_value rest name

/-- Modelled from the spec: the in-place update of the value held by the first cell called
`name` (what a write through the pointer returned by `json_object_get_value` does to the
enclosing object). -/
def json_object_replace : JSON_Object → String → JSON_Value → JSON_Object
  | [], _, _ => []
  | (k, w) :: rest, name, v =>
    if k = name then (k, v) :: rest else (k, w) :: json_object_replace rest name v

/-- Modelled from the spec: parson's `json_object_set_value`: overwrite the value of an existing
name, else add a new cell at the end. -/
def json_object_set_value (o : JSON_Object) (name : String) (v : JSON_Value) : JSON_Object :=
  match json_object_get_value o name with
  | some _ => json_object_replace o name v
  | none => o ++ [(name, v)]

/-- Modelled from the spec: parson's `json_object_set_string` (a `String` is valid UTF-8, so
the string value is always created). -/
def json_object_set_string (o : JSON_Object) (name : String) (s : String) : JSON_Object :=
  json_object_set_value o name (JSON_Value.string s)

/-- Modelled from the spec: the cells after the cell called `name` has been taken out.  parson
moves the last cell into the freed slot and decrements the count; the theorems below read
objects by name only and do not depend on the order of the remaining cells. -/
def json_object_take_out : JSON_Object → String → JSON_Object
  | [], _ => []
  | (k, w) :: rest, name =>
    if k = name then
      match rest.getLast? with
      | some last => last :: rest.dropLast
      | none => []
    else (k, w) :: json_object_take_out rest name

/-- Modelled from the spec: parson's `json_object_remove`; `none` is `JSONFailure` (no cell
called `name`), and then the object is untouched. -/
def json_object_remove (o : JSON_Object) (name : String) : Option JSON_Object :=
  match json_object_get_value o name with
  | some _ => some (json_object_take_out o name)
  | none => none

/-- Modelled from the spec: the components of a dotted name, as parson's dotted functions cut
them (`strchr(name, '.')` on what follows each dot; a component may be empty). -/
def dot_split : List Char → List String
  | [] => [""]
  | c :: cs =>
    if c = '.' then "" :: dot_split cs
    else
      match dot_split cs with
      | [] => [String.mk [c]]
      | h :: t => String.mk (c :: h.data) :: t

/-- Modelled from the spec: the recursion of parson's `json_object_dotset_value`, along the
components of the name. -/
def json_object_dotset_path : JSON_Object → List String → JSON_Value → Option JSON_Object
  | _, [], _ => none
  | o, [name], v => some (json_object_set_value o name v)
  | o, name :: n2 :: rest, v =>
    match json_object_get_value o name with
    | some (JSON_Value.object sub) =>
      (json_object_dotset_path sub (n2 :: rest) v).map
        (fun sub2 => json_object_replace o name (JSON_Value.object sub2))
    | some _ => none
    | none =>
      (json_object_dotset_path [] (n2 :: rest) v).map
        (fun sub2 => o ++ [(name, JSON_Value.object sub2)])

/-- Modelled from the spec: parson's `json_object_dotset_value`: walk the dotted name, creating
intermediate objects as needed; `none` is `JSONFailure` (an intermediate name holds a value that
is not an object), and then the object is untouched. -/
def json_object_dotset_value (o : JSON_Object) (name : String) (v : JSON_Value) :
    Option JSON_Object :=
  json_object_dotset_path o (dot_split name.data) v

/-- Modelled from the spec: parson's `json_object_dotset_string`. -/
def json_object_dotset_string (o : JSON_Object) (name : String) (s : String) :
    Option JSON_Object :=
  json_object_dotset_value o name (JSON_Value.string s)

/-- Modelled from the spec: the recursion of parson's `json_object_dotremove`, along the
components of the name. -/
def json_object_dotremove_path : JSON_Object → List String → Option JSON_Object
  | _, [] => none
  | o, [name] => json_object_remove o name
  | o, name :: n2 :: rest =>
    match json_object_get_value o name with
    | some (JSON_Value.object sub) =>
      (json_object_dotremove_path sub (n2 :: rest)).map
        (fun sub2 => json_object_replace o name (JSON_Value.object sub2))
    | _ => none

/-- Modelled from the spec: parson's `json_object_dotremove`: remove exactly the cell the dotted
name leads to; `none` is `JSONFailure` (no such path), and then the object is untouched. -/
def json_object_dotremove (o : JSON_Object) (name : String) : Option JSON_Object :=
  json_object_dotremove_path o (dot_split name.data)

/-- Modelled from the spec: parson's `json_array_append_value` (append at the end). -/
def json_array_append_value (a : JSON_Array) (v : JSON_Value) : JSON_Array :=
  a ++ [v]

/-- Modelled from the spec: parson's `json_array_get_count`. -/
def json_array_get_count (a : JSON_Array) : Nat :=
  a.length

/-- Modelled from the spec: parson's `json_array_remove` (the later items move down one slot);
`none` is `JSONFailure` (index out of range). -/
def json_array_remove (a : JSON_Array) (ix : Nat) : Option JSON_Array :=
  if ix < a.length then some (a.eraseIdx ix) else none

/-- Modelled from the spec: parson's `json_serialization_size`, the serialized length plus the
terminator. -/
def json_serialization_size (P : Parson) (v : JSON_Value) : Nat :=
  (P.json_serialize v).length + 1

/-- Modelled from the spec: parson's `json_serialize_to_buffer`.  A buffer is the list of its
bytes from offset 0 up to the last byte ever written; every later byte of the calloc-ed block is
still zero.  When the text and its terminator do not fit in `buf_size_in_bytes` the call fails
and writes nothing. -/
def json_serialize_to_buffer (P : Parson) (v : JSON_Value) (buf : List Char)
    (buf_size_in_bytes : Nat) : List Char :=
  if buf_size_in_bytes < json_serialization_size P v then buf
  else
    (P.json_serialize v ++ [Char.ofNat 0]) ++ buf.drop (P.json_serialize v ++ [Char.ofNat 0]).length

/-! ## The cache (`bugsnag_electron_client_sync.c`) -/

/-- The `becs_context` struct without its lock.  `serialized_data` is the written part of the
buffer (see `json_serialize_to_buffer`). -/
structure becs_context where
  save_file_path : Option String
  max_crumbs : Nat
  data : Option JSON_Value
  serialized_data : Option (List Char)
  serialized_data_len : Nat
  deriving DecidableEq

/-- Maximum size for all serialized data. -/
def BECS_SERIALIZED_DATA_LEN : Nat := 1024 * 1024

/-- The zero-initialised `g_context`. -/
def g_context : becs_context :=
  { save_file_path := none, max_crumbs := 0, data := none, serialized_data := none,
    serialized_data_len := 0 }

/-- Field constant `key_breadcrumbs`. -/
def key_breadcrumbs : String := "breadcrumbs"

/-- Field constant `key_context`. -/
def key_context : String := "context"

/-- Field constant `key_metadata`. -/
def key_metadata : String := "metadata"

/-- Field constant `key_user`. -/
def key_user : String := "user"

/-- The C function `serialize_data`: the length is stored first, then the buffer write is
attempted. -/
def serialize_data (P : Parson) (g : becs_context) : becs_context :=
  match g.data with
  | some d =>
    { g with
      serialized_data_len := json_serialization_size P d - 1
      serialized_data :=
        g.serialized_data.map
          (fun buf => json_serialize_to_buffer P d buf BECS_SERIALIZED_DATA_LEN) }
  | none => g

/-- The C function `becs_install` (`max_crumbs` is a `uint8_t`). -/
def becs_install (P : Parson) (save_file_path : String) (max_crumbs : Nat)
    (g : becs_context) : becs_context :=
  match g.data with
  | some _ => g
  | none =>
    let obj : JSON_Object := []
    let obj := json_object_set_value obj key_breadcrumbs (JSON_Value.array [])
    let obj := json_object_set_value obj key_metadata (JSON_Value.object [])
    let obj := json_object_set_value obj key_user (JSON_Value.object [])
    serialize_data P
      { g with
        save_file_path := some save_file_path
        max_crumbs := max_crumbs % 256
        data := some (JSON_Value.object obj)
        serialized_data := some [] }

/-- The C function `becs_uninstall`. -/
def becs_uninstall (g : becs_context) : becs_context :=
  match g.data with
  | none => g
  | some _ =>
    { g with serialized_data_len := 0, data := none, save_file_path := none,
             serialized_data := none }

/-- The trimming loop of `becs_add_breadcrumb`:
`while (json_array_get_count(breadcrumbs) > max_crumbs) json_array_remove(breadcrumbs, 0);`
(removing index 0 of `b :: rest` leaves `rest`, see `json_array_remove_first`). -/
def trim_breadcrumbs (max_crumbs : Nat) : JSON_Array → JSON_Array
  | [] => []
  | b :: rest =>
    if json_array_get_count (b :: rest) > max_crumbs then trim_breadcrumbs max_crumbs rest
    else b :: rest

/-- The document after the body of the `if` in `becs_add_breadcrumb`: append to the
`breadcrumbs` array, then trim from the front. -/
def add_breadcrumb_value (max_crumbs : Nat) (data : JSON_Value) (breadcrumb : JSON_Value) :
    JSON_Value :=
  match json_value_get_object (some data) with
  | some obj =>
    match json_value_get_array (json_object_get_value obj key_breadcrumbs) with
    | some breadcrumbs =>
      JSON_Value.object
        (json_object_replace obj key_breadcrumbs
          (JSON_Value.array
            (trim_breadcrumbs max_crumbs (json_array_append_value breadcrumbs breadcrumb))))
    | none => data
  | none => data

/-- The C function `becs_add_breadcrumb`. -/
def becs_add_breadcrumb (P : Parson) (val : String) (g : becs_context) : becs_context :=
  match g.data with
  | none => g
  | some data =>
    match P.json_parse_string val with
    | some (JSON_Value.object crumb) =>
      serialize_data P
        { g with data := some (add_breadcrumb_value g.max_crumbs data (JSON_Value.object crumb)) }
    | _ => g

/-- The document after the locked section of `becs_set_context`. -/
def set_context_value (data : JSON_Value) (context : Option String) : JSON_Value :=
  match json_value_get_object (some data) with
  | some obj =>
    match context with
    | some c => JSON_Value.object (json_object_set_string obj key_context c)
    | none => JSON_Value.object ((json_object_remove obj key_context).getD obj)
  | none => data

/-- The C function `becs_set_context`. -/
def becs_set_context (P : Parson) (context : Option String) (g : becs_context) : becs_context :=
  match g.data with
  | none => g
  | some data => serialize_data P { g with data := some (set_context_value data context) }

/-- The result of `asprintf(&keypath, "metadata.%s.%s", tab, key)`. -/
def metadata_keypath (tab key : String) : String :=
  "metadata." ++ tab ++ "." ++ key

/-- The document after the locked section of `becs_set_metadata`. -/
def set_metadata_value (P : Parson) (data : JSON_Value) (keypath : String)
    (val : Option String) : JSON_Value :=
  match json_value_get_object (some data) with
  | some obj =>
    match val with
    | some val =>
      match P.json_parse_string val with
      | some metadata_value =>
        JSON_Value.object ((json_object_dotset_value obj keypath metadata_value).getD obj)
      | none => data
    | none => JSON_Value.object ((json_object_dotremove obj keypath).getD obj)
  | none => data

/-- The C function `becs_set_metadata`. -/
def becs_set_metadata (P : Parson) (tab key val : Option String) (g : becs_context) :
    becs_context :=
  match g.data with
  | none => g
  | some data =>
    match tab, key with
    | some tab, some key =>
      serialize_data P
        { g with data := some (set_metadata_value P data (metadata_keypath tab key) val) }
    | _, _ => g

/-- One of the three set-or-remove steps of `becs_set_user`. -/
def set_or_remove_string (obj : JSON_Object) (name : String) (s : Option String) : JSON_Object :=
  match s with
  | some s => (json_object_dotset_string obj name s).getD obj
  | none => (json_object_dotremove obj name).getD obj

/-- The document after the locked section of `becs_set_user`. -/
def set_user_value (data : JSON_Value) (id email name : Option String) : JSON_Value :=
  match json_value_get_object (some data) with
  | some obj =>
    let obj := set_or_remove_string obj "user.id" id
    let obj := set_or_remove_string obj "user.email" email
    let obj := set_or_remove_string obj "user.name" name
    JSON_Value.object obj
  | none => data

/-- The C function `becs_set_user`. -/
def becs_set_user (P : Parson) (id email name : Option String) (g : becs_context) :
    becs_context :=
  match g.data with
  | none => g
  | some data => serialize_data P { g with data := some (set_user_value data id email name) }

/-! ## The file system seen by `becs_persist_to_disk` -/

/-- A file system: the content of the file at each path, `none` where there is no file. -/
abbrev FileSystem := String → Option (List Char)

/-- The `n` bytes that `write` reads from the start of the buffer (bytes past the written part
of the block are zero). -/
def buffer_read (buf : List Char) (n : Nat) : List Char :=
  buf.take n ++ List.replicate (n - buf.length) (Char.ofNat 0)

/-- The content of a file that existed with content `old` (empty when it was just created)
after a complete `write` of `bytes` at offset 0: the bytes replace the start of the file and
what lies beyond them stays. -/
def write_at_start (old bytes : List Char) : List Char :=
  bytes ++ old.drop bytes.length

/-- The C function `becs_persist_to_disk`: `open(path, O_WRONLY | O_CREAT, 0644)`, `write`,
`close`.  `open_ok` says whether `open` returned a descriptor; the write is taken to be
complete.  The flags hold no `O_TRUNC` and no `O_APPEND`, so an existing file keeps its content
and the write starts at offset 0. -/
def becs_persist_to_disk (open_ok : Bool) (g : becs_context) (fs : FileSystem) : FileSystem :=
  match g.save_file_path with
  | none => fs
  | some path =>
    if open_ok then
      fun p =>
        if p = path then
          some (write_at_start ((fs path).getD [])
            (buffer_read (g.serialized_data.getD []) g.serialized_data_len))
        else fs p
    else fs

/-! ## Call sequences -/

/-- A call of one of the four mutation functions. -/
inductive becs_call where
  | add_breadcrumb (val : String)
  | set_context (context : Option String)
  | set_metadata (tab key val : Option String)
  | set_user (id email name : Option String)

/-- The effect of a call on the cache. -/
def becs_apply (P : Parson) (g : becs_context) : becs_call → becs_context
  | becs_call.add_breadcrumb val => becs_add_breadcrumb P val g
  | becs_call.set_context context => becs_set_context P context g
  | becs_call.set_metadata tab key val => becs_set_metadata P tab key val g
  | becs_call.set_user id email name => becs_set_user P id email name g

/-- The installed states: `becs_install` on the zero-initialised context, followed by any
sequence of mutation calls. -/
inductive Installed (P : Parson) : becs_context → Prop
  | install (save_file_path : String) (max_crumbs : Nat) :
      Installed P (becs_install P save_file_path max_crumbs g_context)
  | call {g : becs_context} (c : becs_call) : Installed P g → Installed P (becs_apply P g c)

/-- The document's serialization, with its terminator, fits in the buffer. -/
def fits_buffer (P : Parson) (g : becs_context) : Prop :=
  match g.data with
  | some d => json_serialization_size P d ≤ BECS_SERIALIZED_DATA_LEN
  | none => True

instance (P : Parson) (g : becs_context) : Decidable (fits_buffer P g) := by
  unfold fits_buffer
  cases g.data <;> infer_instance

/-- The installed states reached through documents that all fit in the buffer. -/
inductive InstalledFitting (P : Parson) : becs_context → Prop
  | install (save_file_path : String) (max_crumbs : Nat) :
      fits_buffer P (becs_install P save_file_path max_crumbs g_context) →
      InstalledFitting P (becs_install P save_file_path max_crumbs g_context)
  | call {g : becs_context} (c : becs_call) :
      InstalledFitting P g → fits_buffer P (becs_apply P g c) →
      InstalledFitting P (becs_apply P g c)

/-- The value stored under a top-level field of the document. -/
def document_field (g : becs_context) (name : String) : Option JSON_Value :=
  match json_value_get_object g.data with
  | some obj => json_object_get_value obj name
  | none => none

/-- The value at `metadata.<tab>.<key>`, addressed by exact names. -/
def metadata_entry (g : becs_context) (tab key : String) : Option JSON_Value :=
  match json_value_get_object (document_field g key_metadata) with
  | some m =>
    match json_value_get_object (json_object_get_value m tab) with
    | some t => json_object_get_value t key
    | none => none
  | none => none

/-- The value stored under a field of the `user` object. -/
def user_field (g : becs_context) (name : String) : Option JSON_Value :=
  match json_value_get_object (document_field g key_user) with
  | some u => json_object_get_value u name
  | none => none

/-! ## Auxiliary notions for the proofs -/

/-- The names of the cells of an object, in storage order. -/
def object_names (o : JSON_Object) : List String := o.map Prod.fst

/-- Every cell of the `metadata` object holds an object with pairwise distinct names. -/
def tabs_ok (m : JSON_Object) : Prop :=
  ∀ c ∈ m, ∃ t, c.2 = JSON_Value.object t ∧ (object_names t).Nodup

/-- The shape every installed document has: an object with pairwise distinct names holding a
`breadcrumbs` array, a `metadata` object of tab objects and a `user` object. -/
def document_ok (d : JSON_Value) : Prop :=
  ∃ root bs m u, d = JSON_Value.object root ∧ (object_names root).Nodup ∧
    json_object_get_value root key_breadcrumbs = some (JSON_Value.array bs) ∧
    json_object_get_value root key_metadata = some (JSON_Value.object m) ∧ tabs_ok m ∧
    json_object_get_value root key_user = some (JSON_Value.object u) ∧ (object_names u).Nodup

/-- The shape every installed cache has. -/
def context_ok (g : becs_context) : Prop :=
  ∃ d buf path, g.data = some d ∧ document_ok d ∧ g.serialized_data = some buf ∧
    g.save_file_path = some path

/-- What `becs_set_metadata` asks of the `metadata` object: a dotted set of the parsed value,
or a dotted remove, along the components of tab and key. -/
def metadata_update (P : Parson) (m : JSON_Object) (p : List String) (val : Option String) :
    Option JSON_Object :=
  match val with
  | some val =>
    match P.json_parse_string val with
    | some v => json_object_dotset_path m p v
    | none => none
  | none => json_object_dotremove_path m p

/-- One set-or-remove step of `becs_set_user`, seen from inside the `user` object. -/
def set_or_remove_cell (u : JSON_Object) (field : String) (s : Option String) : JSON_Object :=
  match s with
  | some s => json_object_set_value u field (JSON_Value.string s)
  | none => (json_object_remove u field).getD u

/-- The `user` object after the three steps of `becs_set_user`. -/
def user_after (u : JSON_Object) (id email name : Option String) : JSON_Object :=
  set_or_remove_cell (set_or_remove_cell (set_or_remove_cell u "id" id) "email" email) "name" name

/-- The items of the `breadcrumbs` array of the document. -/
def breadcrumbs_of (g : becs_context) : Option JSON_Array :=
  json_value_get_array (document_field g key_breadcrumbs)

/-- The value stored under `metadata.<tab>`, addressed by the exact tab name. -/
def metadata_tab (g : becs_context) (tab : String) : Option JSON_Value :=
  match json_value_get_object (document_field g key_metadata) with
  | some m => json_object_get_value m tab
  | none => none

/-- The buffer holds the document: its first `serialized_data_len` bytes are the serialization
of `data`, `serialized_data_len` is the length of that serialization, a terminator follows, and
a parser that reads the serialization back as the document reads the buffer back as the
document. -/
def buffer_holds_document (P : Parson) (g : becs_context) : Prop :=
  ∃ d buf, g.data = some d ∧ g.serialized_data = some buf ∧
    buf.take g.serialized_data_len = P.json_serialize d ∧
    g.serialized_data_len = (P.json_serialize d).length ∧
    json_serialization_size P d = g.serialized_data_len + 1 ∧
    buf[g.serialized_data_len]? = some (Char.ofNat 0) ∧
    (P.json_parse_string (String.mk (P.json_serialize d)) = some d →
      P.json_parse_string (String.mk (buf.take g.serialized_data_len)) = some d)

/-! ## A sample `Parson` for worked examples -/

/-- Sample serializer: the text of a string inside serialized JSON, parson style.  Quote,
backslash and slash are escaped with a backslash, the named control characters by their letter,
other control characters as a four-digit unicode escape. -/
def sample_escape : List Char → List Char
  | [] => []
  | c :: cs =>
    (if c = Char.ofNat 34 then [Char.ofNat 92, Char.ofNat 34]
     else if c = Char.ofNat 92 then [Char.ofNat 92, Char.ofNat 92]
     else if c = '/' then [Char.ofNat 92, '/']
     else if c = Char.ofNat 8 then [Char.ofNat 92, 'b']
     else if c = Char.ofNat 12 then [Char.ofNat 92, 'f']
     else if c = Char.ofNat 10 then [Char.ofNat 92, 'n']
     else if c = Char.ofNat 13 then [Char.ofNat 92, 'r']
     else if c = Char.ofNat 9 then [Char.ofNat 92, 't']
     else if c.toNat < 32 then
       [Char.ofNat 92, 'u', '0', '0', Nat.digitChar (c.toNat / 16), Nat.digitChar (c.toNat % 16)]
     else [c]) ++ sample_escape cs

/-- Sample serializer: a quoted, escaped string. -/
def sample_quote (s : String) : List Char :=
  Char.ofNat 34 :: sample_escape s.data ++ [Char.ofNat 34]

/-- Sample serializer: the digits of a number that is an integer (the worked examples use no
other numbers; the fractional part of any other number is dropped). -/
def sample_number (d : Rat) : List Char :=
  if d < 0 then '-' :: Nat.toDigits 10 (Int.toNat (-(Int.floor d)))
  else Nat.toDigits 10 (Int.toNat (Int.floor d))

mutual
/-- Sample serializer: compact JSON text of a value, the way parson's
`json_serialize_to_buffer_r` lays it out (no whitespace, cells and items in storage order). -/
def sample_serialize : JSON_Value → List Char
  | JSON_Value.null => "null".data
  | JSON_Value.string s => sample_quote s
  | JSON_Value.number d => sample_number d
  | JSON_Value.object o => Char.ofNat 123 :: sample_serialize_cells o ++ [Char.ofNat 125]
  | JSON_Value.array a => '[' :: sample_serialize_items a ++ [']']
  | JSON_Value.boolean b => if b then "true".data else "false".data
/-- Sample serializer: the cells of an object, comma separated. -/
def sample_serialize_cells : List (String × JSON_Value) → List Char
  | [] => []
  | [(k, v)] => sample_quote k ++ [':'] ++ sample_serialize v
  | (k, v) :: c :: cs =>
    sample_quote k ++ [':'] ++ sample_serialize v ++ [','] ++ sample_serialize_cells (c :: cs)
/-- Sample serializer: the items of an array, comma separated. -/
def sample_serialize_items : List JSON_Value → List Char
  | [] => []
  | [v] => sample_serialize v
  | v :: w :: vs => sample_serialize v ++ [','] ++ sample_serialize_items (w :: vs)
end

/-- Sample parser: what `json_parse_string` returns on the texts used in the worked examples;
any other text is treated as unparsable. -/
def sample_parse (s : String) : Option JSON_Value :=
  if s = "\x7b\"name\":\"A\"\x7d" then some (JSON_Value.object [("name", JSON_Value.string "A")])
  else if s = "\x7b\"name\":\"B\"\x7d" then
    some (JSON_Value.object [("name", JSON_Value.string "B")])
  else if s = "\x7b\"name\":\"C\"\x7d" then
    some (JSON_Value.object [("name", JSON_Value.string "C")])
  else if s = "\x7b\"name\":\"D\"\x7d" then
    some (JSON_Value.object [("name", JSON_Value.string "D")])
  else if s = "\x7b\"level\":80\x7d" then
    some (JSON_Value.object [("level", JSON_Value.number 80)])
  else if s = "\x7b\"c\":1\x7d" then some (JSON_Value.object [("c", JSON_Value.number 1)])
  else if s = "[1]" then some (JSON_Value.array [JSON_Value.number 1])
  else if s = "1" then some (JSON_Value.number 1)
  else if s = "true" then some (JSON_Value.boolean true)
  else if s = "null" then some JSON_Value.null
  else if s = "\"x\"" then some (JSON_Value.string "x")
  else if s = "\x7b\"breadcrumbs\":[],\"metadata\":\x7b\x7d,\"user\":\x7b\x7d\x7d" then
    some (JSON_Value.object
      [("breadcrumbs", JSON_Value.array []), ("metadata", JSON_Value.object []),
       ("user", JSON_Value.object [])])
  else none

/-- The sample parser and serializer, used only to instantiate the theorems at concrete
inputs. -/
def sample_parson : Parson :=
  { json_parse_string := sample_parse, json_serialize := sample_serialize }

/-! ## Lemmas on the object operations -/

theorem get_value_eq_none_iff (o : JSON_Object) (k : String) :
    json_object_get_value o k = none ↔ k ∉ object_names o := by
  induction o with
  | nil => simp [json_object_get_value, object_names]
  | cons c rest ih =>
    obtain ⟨n, w⟩ := c
    by_cases h : n = k
    · simp [json_object_get_value, object_names, h]
    · have h2 : ¬ k = n := fun e => h e.symm
      simpa [json_object_get_value, object_names, h, h2] using ih

theorem get_value_mem {o : JSON_Object} {k : String} {v : JSON_Value}
    (h : json_object_get_value o k = some v) : (k, v) ∈ o := by
  induction o with
  | nil => simp [json_object_get_value] at h
  | cons c rest ih =>
    obtain ⟨n, w⟩ := c
    by_cases hn : n = k
    · simp [json_object_get_value, hn] at h
      simp [hn, h]
    · simp [json_object_get_value, hn] at h
      exact List.mem_cons_of_mem _ (ih h)

theorem get_value_of_mem {o : JSON_Object} {k : String} {v : JSON_Value}
    (hnd : (object_names o).Nodup) (h : (k, v) ∈ o) : json_object_get_value o k = some v := by
  induction o with
  | nil => simp at h
  | cons c rest ih =>
    obtain ⟨n, w⟩ := c
    simp only [object_names, List.map_cons, List.nodup_cons] at hnd
    rcases List.mem_cons.1 h with e | e
    · cases e
      simp [json_object_get_value]
    · have hk : n ≠ k := by
        intro hnk
        apply hnd.1
        rw [hnk]
        exact List.mem_map_of_mem Prod.fst e
      simp only [json_object_get_value, hk, if_false]
      exact ih hnd.2 e

theorem names_replace (o : JSON_Object) (n : String) (v : JSON_Value) :
    object_names (json_object_replace o n v) = object_names o := by
  induction o with
  | nil => rfl
  | cons c rest ih =>
    obtain ⟨k, w⟩ := c
    by_cases h : k = n
    · simp [json_object_replace, object_names, h]
    · simp only [object_names] at ih
      simp [json_object_replace, object_names, h, ih]

theorem get_replace_ne (o : JSON_Object) {n k : String} (v : JSON_Value) (h : k ≠ n) :
    json_object_get_value (json_object_replace o n v) k = json_object_get_value o k := by
  induction o with
  | nil => rfl
  | cons c rest ih =>
    obtain ⟨m, w⟩ := c
    by_cases hm : m = n
    · subst hm
      have hmk : ¬ m = k := fun e => h e.symm
      simp [json_object_replace, json_object_get_value, hmk]
    · by_cases hmk : m = k
      · subst hmk
        simp [json_object_replace, json_object_get_value, hm]
      · simp [json_object_replace, json_object_get_value, hm, hmk, ih]

theorem get_replace_same (o : JSON_Object) {n : String} {w : JSON_Value} (v : JSON_Value)
    (h : json_object_get_value o n = some w) :
    json_object_get_value (json_object_replace o n v) n = some v := by
  induction o with
  | nil => simp [json_object_get_value] at h
  | cons c rest ih =>
    obtain ⟨m, x⟩ := c
    by_cases hm : m = n
    · simp [json_object_replace, json_object_get_value, hm]
    · simp only [json_object_get_value, hm, if_false] at h
      simp [json_object_replace, json_object_get_value, hm, ih h]

theorem mem_replace {o : JSON_Object} {n : String} {v : JSON_Value} {c : String × JSON_Value}
    (h : c ∈ json_object_replace o n v) : c ∈ o ∨ c = (n, v) := by
  induction o with
  | nil => simp [json_object_replace] at h
  | cons d rest ih =>
    obtain ⟨m, x⟩ := d
    by_cases hm : m = n
    · simp only [json_object_replace, hm, if_true, List.mem_cons] at h
      rcases h with e | e
      · exact Or.inr e
      · exact Or.inl (List.mem_cons_of_mem _ e)
    · simp only [json_object_replace, hm, if_false, List.mem_cons] at h
      rcases h with e | e
      · exact Or.inl (by rw [e]; exact List.mem_cons_self _ _)
      · rcases ih e with e2 | e2
        · exact Or.inl (List.mem_cons_of_mem _ e2)
        · exact Or.inr e2

theorem get_append_none (o : JSON_Object) {n k : String} (v : JSON_Value)
    (h : json_object_get_value o k = none) :
    json_object_get_value (o ++ [(n, v)]) k = if n = k then some v else none := by
  induction o with
  | nil => simp [json_object_get_value]
  | cons c rest ih =>
    obtain ⟨m, x⟩ := c
    by_cases hm : m = k
    · simp [json_object_get_value, hm] at h
    · simp only [json_object_get_value, hm, if_false] at h
      simp [json_object_get_value, hm, ih h]

theorem get_append_some (o : JSON_Object) {n k : String} (v : JSON_Value) {w : JSON_Value}
    (h : json_object_get_value o k = some w) :
    json_object_get_value (o ++ [(n, v)]) k = some w := by
  induction o with
  | nil => simp [json_object_get_value] at h
  | cons c rest ih =>
    obtain ⟨m, x⟩ := c
    by_cases hm : m = k
    · simp [json_object_get_value, hm] at h
      simp [json_object_get_value, hm, h]
    · simp only [json_object_get_value, hm, if_false] at h
      simp [json_object_get_value, hm, ih h]

theorem get_append_ne (o : JSON_Object) {n k : String} (v : JSON_Value) (h : k ≠ n) :
    json_object_get_value (o ++ [(n, v)]) k = json_object_get_value o k := by
  cases hg : json_object_get_value o k with
  | none =>
    rw [get_append_none o v hg]
    simp [Ne.symm h]
  | some w => exact get_append_some o v hg

theorem get_set_value_same (o : JSON_Object) (n : String) (v : JSON_Value) :
    json_object_get_value (json_object_set_value o n v) n = some v := by
  unfold json_object_set_value
  cases hg : json_object_get_value o n with
  | none => simp [get_append_none o v hg]
  | some w => simpa using get_replace_same o v hg

theorem get_set_value_ne (o : JSON_Object) {n k : String} (v : JSON_Value) (h : k ≠ n) :
    json_object_get_value (json_object_set_value o n v) k = json_object_get_value o k := by
  unfold json_object_set_value
  cases hg : json_object_get_value o n with
  | none => simpa using get_append_ne o v h
  | some w => simpa using get_replace_ne o v h

theorem names_set_value_nodup (o : JSON_Object) (n : String) (v : JSON_Value)
    (hnd : (object_names o).Nodup) : (object_names (json_object_set_value o n v)).Nodup := by
  unfold json_object_set_value
  cases hg : json_object_get_value o n with
  | none =>
    have hn := (get_value_eq_none_iff o n).1 hg
    simp only [object_names, List.map_append, List.map_cons, List.map_nil]
    rw [List.nodup_append]
    refine ⟨hnd, List.nodup_singleton _, ?_⟩
    intro a ha hb
    simp only [List.mem_singleton] at hb
    rw [hb] at ha
    exact hn ha
  | some w =>
    simp only
    rw [names_replace]
    exact hnd

theorem take_out_perm (o : JSON_Object) (n : String) (hnd : (object_names o).Nodup) :
    (json_object_take_out o n).Perm (o.filter (fun c => decide (c.1 ≠ n))) := by
  induction o with
  | nil => simp [json_object_take_out]
  | cons c rest ih =>
    obtain ⟨k, w⟩ := c
    simp only [object_names, List.map_cons, List.nodup_cons] at hnd
    by_cases hk : k = n
    · subst hk
      have hall : ∀ c ∈ rest, decide (c.1 ≠ k) = true := by
        intro c hc
        have : c.1 ≠ k := by
          intro e
          apply hnd.1
          rw [← e]
          exact List.mem_map_of_mem Prod.fst hc
        simpa using this
      have hf : rest.filter (fun c => decide (c.1 ≠ k)) = rest := List.filter_eq_self.2 hall
      simp only [json_object_take_out, if_true, List.filter_cons, ne_eq, not_true_eq_false,
        decide_False, Bool.false_eq_true, if_false]
      simp only [ne_eq] at hf
      rw [hf]
      cases hl : rest.getLast? with
      | none =>
        have : rest = [] := List.getLast?_eq_none_iff.1 hl
        simp [this]
      | some last =>
        have e : rest.dropLast ++ [last] = rest :=
          List.dropLast_append_getLast? last (Option.mem_def.2 hl)
        simp only
        calc (last :: rest.dropLast).Perm (rest.dropLast ++ [last]) :=
              (List.perm_append_singleton last rest.dropLast).symm
          _ = rest := e
    · have hd : decide ((k, w).1 ≠ n) = true := by simpa using hk
      simp only [json_object_take_out, hk, if_false]
      have hfc : List.filter (fun c => decide (c.1 ≠ n)) ((k, w) :: rest)
          = (k, w) :: List.filter (fun c => decide (c.1 ≠ n)) rest := by
        simp [List.filter_cons, hk]
      rw [hfc]
      exact List.Perm.cons _ (ih hnd.2)

theorem names_take_out_nodup (o : JSON_Object) (n : String) (hnd : (object_names o).Nodup) :
    (object_names (json_object_take_out o n)).Nodup := by
  have hp := (take_out_perm o n hnd).map Prod.fst
  refine (List.Perm.nodup_iff hp).2 ?_
  have hs : List.Sublist ((o.filter (fun c => decide (c.1 ≠ n))).map Prod.fst) (o.map Prod.fst) :=
    List.Sublist.map _ (List.filter_sublist _)
  exact hs.nodup hnd

theorem get_take_out_same (o : JSON_Object) (n : String) (hnd : (object_names o).Nodup) :
    json_object_get_value (json_object_take_out o n) n = none := by
  rw [get_value_eq_none_iff]
  intro hmem
  have hp := (take_out_perm o n hnd).map Prod.fst
  have := (List.Perm.mem_iff hp).1 hmem
  simp at this

theorem get_take_out_ne (o : JSON_Object) {n k : String} (hnd : (object_names o).Nodup)
    (h : k ≠ n) :
    json_object_get_value (json_object_take_out o n) k = json_object_get_value o k := by
  have hp := take_out_perm o n hnd
  have hnd2 := names_take_out_nodup o n hnd
  cases hg : json_object_get_value o k with
  | none =>
    rw [get_value_eq_none_iff] at hg ⊢
    intro hmem
    have := (List.Perm.mem_iff (hp.map Prod.fst)).1 hmem
    apply hg
    simp only [List.mem_map, List.mem_filter] at this
    obtain ⟨c, ⟨hc, _⟩, e⟩ := this
    rw [← e]
    exact List.mem_map_of_mem Prod.fst hc
  | some v =>
    apply get_value_of_mem hnd2
    apply (List.Perm.mem_iff hp).2
    simp only [List.mem_filter]
    exact ⟨get_value_mem hg, by simpa using h⟩

theorem remove_some {o o2 : JSON_Object} {n : String} (h : json_object_remove o n = some o2) :
    o2 = json_object_take_out o n := by
  unfold json_object_remove at h
  cases hg : json_object_get_value o n with
  | none => simp [hg] at h
  | some w =>
    simp [hg] at h
    exact h.symm

theorem get_remove_getD_same (o : JSON_Object) (n : String) (hnd : (object_names o).Nodup) :
    json_object_get_value ((json_object_remove o n).getD o) n = none := by
  unfold json_object_remove
  cases hg : json_object_get_value o n with
  | none => simpa using hg
  | some w => simpa using get_take_out_same o n hnd

theorem get_remove_getD_ne (o : JSON_Object) {n k : String} (hnd : (object_names o).Nodup)
    (h : k ≠ n) :
    json_object_get_value ((json_object_remove o n).getD o) k = json_object_get_value o k := by
  unfold json_object_remove
  cases hg : json_object_get_value o n with
  | none => simp
  | some w => simpa using get_take_out_ne o hnd h

theorem names_remove_getD_nodup (o : JSON_Object) (n : String) (hnd : (object_names o).Nodup) :
    (object_names ((json_object_remove o n).getD o)).Nodup := by
  unfold json_object_remove
  cases hg : json_object_get_value o n with
  | none => simpa using hnd
  | some w => simpa using names_take_out_nodup o n hnd

/-! ## Lemmas on dotted names -/

theorem dot_split_ne_nil (l : List Char) : dot_split l ≠ [] := by
  cases l with
  | nil => simp [dot_split]
  | cons c cs =>
    by_cases h : c = '.'
    · simp [dot_split, h]
    · simp only [dot_split, h, if_false]
      cases dot_split cs <;> simp

theorem dot_split_append (a b : List Char) :
    dot_split (a ++ '.' :: b) = dot_split a ++ dot_split b := by
  induction a with
  | nil => simp [dot_split]
  | cons c cs ih =>
    by_cases h : c = '.'
    · simp [dot_split, h, ih]
    · have e : dot_split (c :: cs ++ '.' :: b)
          = (match dot_split (cs ++ '.' :: b) with
            | [] => [String.mk [c]]
            | x :: t => String.mk (c :: x.data) :: t) := by
        simp [dot_split, h]
      have e2 : dot_split (c :: cs)
          = (match dot_split cs with
            | [] => [String.mk [c]]
            | x :: t => String.mk (c :: x.data) :: t) := by
        simp [dot_split, h]
      rw [e, e2, ih]
      cases hs : dot_split cs with
      | nil => exact absurd hs (dot_split_ne_nil cs)
      | cons x xs => simp

theorem dot_split_no_dot (l : List Char) (h : '.' ∉ l) : dot_split l = [String.mk l] := by
  induction l with
  | nil => rfl
  | cons c cs ih =>
    simp only [List.mem_cons, not_or] at h
    have hc : ¬ c = '.' := fun e => h.1 e.symm
    simp [dot_split, hc, ih h.2]

theorem dot_split_keypath (tab key : String) :
    dot_split (metadata_keypath tab key).data
      = "metadata" :: (dot_split tab.data ++ dot_split key.data) := by
  have e : (metadata_keypath tab key).data
      = "metadata".data ++ '.' :: (tab.data ++ '.' :: key.data) := by
    simp [metadata_keypath, String.data_append]
  rw [e, dot_split_append, dot_split_append]
  rfl

/-- Two components at least follow `metadata` in a key path. -/
theorem dot_split_pair (a b : List Char) :
    ∃ n1 n2 rest, dot_split a ++ dot_split b = n1 :: n2 :: rest := by
  cases ha : dot_split a with
  | nil => exact absurd ha (dot_split_ne_nil a)
  | cons x xs =>
    cases xs with
    | nil =>
      cases hb : dot_split b with
      | nil => exact absurd hb (dot_split_ne_nil b)
      | cons y ys => exact ⟨x, y, ys, rfl⟩
    | cons x2 xs2 => exact ⟨x, x2, xs2 ++ dot_split b, rfl⟩

/-! ## Well-formed documents -/

theorem dotset_path_nodup (p : List String) (v : JSON_Value) :
    ∀ (o o2 : JSON_Object), json_object_dotset_path o p v = some o2 →
      (object_names o).Nodup → (object_names o2).Nodup := by
  induction p with
  | nil => intro o o2 h; simp [json_object_dotset_path] at h
  | cons name rest ih =>
    intro o o2 h hnd
    cases rest with
    | nil =>
      simp only [json_object_dotset_path, Option.some.injEq] at h
      rw [← h]
      exact names_set_value_nodup o name v hnd
    | cons n2 rest2 =>
      simp only [json_object_dotset_path] at h
      cases hg : json_object_get_value o name with
      | none =>
        rw [hg] at h
        simp only [Option.map_eq_some'] at h
        obtain ⟨sub2, _, e⟩ := h
        rw [← e]
        have hn := (get_value_eq_none_iff o name).1 hg
        simp only [object_names, List.map_append, List.map_cons, List.map_nil]
        rw [List.nodup_append]
        refine ⟨hnd, List.nodup_singleton _, ?_⟩
        intro a ha hb
        simp only [List.mem_singleton] at hb
        rw [hb] at ha
        exact hn ha
      | some w =>
        rw [hg] at h
        cases w with
        | object sub =>
          simp only [Option.map_eq_some'] at h
          obtain ⟨sub2, _, e⟩ := h
          rw [← e, names_replace]
          exact hnd
        | null => simp at h
        | string s => simp at h
        | number d => simp at h
        | array a => simp at h
        | boolean b => simp at h

theorem dotremove_path_nodup (p : List String) :
    ∀ (o o2 : JSON_Object), json_object_dotremove_path o p = some o2 →
      (object_names o).Nodup → (object_names o2).Nodup := by
  induction p with
  | nil => intro o o2 h; simp [json_object_dotremove_path] at h
  | cons name rest ih =>
    intro o o2 h hnd
    cases rest with
    | nil =>
      simp only [json_object_dotremove_path] at h
      rw [remove_some h]
      exact names_take_out_nodup o name hnd
    | cons n2 rest2 =>
      simp only [json_object_dotremove_path] at h
      cases hg : json_object_get_value o name with
      | none => rw [hg] at h; simp at h
      | some w =>
        rw [hg] at h
        cases w with
        | object sub =>
          simp only [Option.map_eq_some'] at h
          obtain ⟨sub2, _, e⟩ := h
          rw [← e, names_replace]
          exact hnd
        | null => simp at h
        | string s => simp at h
        | number d => simp at h
        | array a => simp at h
        | boolean b => simp at h

theorem tabs_ok_replace {m : JSON_Object} {n : String} {t : JSON_Object} (hm : tabs_ok m)
    (ht : (object_names t).Nodup) : tabs_ok (json_object_replace m n (JSON_Value.object t)) := by
  intro c hc
  rcases mem_replace hc with e | e
  · exact hm c e
  · exact ⟨t, by rw [e], ht⟩

theorem tabs_ok_append {m : JSON_Object} {n : String} {t : JSON_Object} (hm : tabs_ok m)
    (ht : (object_names t).Nodup) : tabs_ok (m ++ [(n, JSON_Value.object t)]) := by
  intro c hc
  rcases List.mem_append.1 hc with e | e
  · exact hm c e
  · simp only [List.mem_singleton] at e
    exact ⟨t, by rw [e], ht⟩

theorem tabs_ok_get {m : JSON_Object} {n : String} {w : JSON_Value} (hm : tabs_ok m)
    (h : json_object_get_value m n = some w) :
    ∃ t, w = JSON_Value.object t ∧ (object_names t).Nodup :=
  hm (n, w) (get_value_mem h)

/-- A dotted set of two components or more below `metadata` keeps the tab objects well formed. -/
theorem dotset_path_tabs_ok {m m2 : JSON_Object} (n1 n2 : String) (rest : List String)
    (v : JSON_Value) (hm : tabs_ok m)
    (h : json_object_dotset_path m (n1 :: n2 :: rest) v = some m2) : tabs_ok m2 := by
  simp only [json_object_dotset_path] at h
  cases hg : json_object_get_value m n1 with
  | none =>
    rw [hg] at h
    simp only [Option.map_eq_some'] at h
    obtain ⟨sub2, hs, e⟩ := h
    rw [← e]
    exact tabs_ok_append hm (dotset_path_nodup _ v [] sub2 hs (by simp [object_names]))
  | some w =>
    obtain ⟨t, e, ht⟩ := tabs_ok_get hm hg
    rw [hg, e] at h
    simp only [Option.map_eq_some'] at h
    obtain ⟨sub2, hs, e2⟩ := h
    rw [← e2]
    exact tabs_ok_replace hm (dotset_path_nodup _ v t sub2 hs ht)

/-- A dotted remove of two components or more below `metadata` keeps the tab objects well
formed. -/
theorem dotremove_path_tabs_ok {m m2 : JSON_Object} (n1 n2 : String) (rest : List String)
    (hm : tabs_ok m)
    (h : json_object_dotremove_path m (n1 :: n2 :: rest) = some m2) : tabs_ok m2 := by
  simp only [json_object_dotremove_path] at h
  cases hg : json_object_get_value m n1 with
  | none => rw [hg] at h; simp at h
  | some w =>
    obtain ⟨t, e, ht⟩ := tabs_ok_get hm hg
    rw [hg, e] at h
    simp only [Option.map_eq_some'] at h
    obtain ⟨sub2, hs, e2⟩ := h
    rw [← e2]
    exact tabs_ok_replace hm (dotremove_path_nodup _ t sub2 hs ht)

theorem key_facts :
    key_breadcrumbs ≠ key_metadata ∧ key_breadcrumbs ≠ key_user ∧ key_breadcrumbs ≠ key_context ∧
    key_metadata ≠ key_user ∧ key_metadata ≠ key_context ∧ key_user ≠ key_context := by
  decide

/-- Writing a new list into the `breadcrumbs` cell keeps the document well formed. -/
theorem document_ok_replace_breadcrumbs {root : JSON_Object} (bs : JSON_Array)
    (h : document_ok (JSON_Value.object root)) :
    document_ok (JSON_Value.object
      (json_object_replace root key_breadcrumbs (JSON_Value.array bs))) := by
  obtain ⟨r, bs0, m, u, e, hnd, hb, hm, htabs, hu, hund⟩ := h
  cases e
  obtain ⟨k1, k2, k3, k4, k5, k6⟩ := key_facts
  refine ⟨_, bs, m, u, rfl, ?_, get_replace_same _ _ hb, ?_, htabs, ?_, hund⟩
  · rw [names_replace]; exact hnd
  · rw [get_replace_ne _ _ (Ne.symm k1)]; exact hm
  · rw [get_replace_ne _ _ (Ne.symm k2)]; exact hu

/-- Writing a well-formed object into the `metadata` cell keeps the document well formed. -/
theorem document_ok_replace_metadata {root : JSON_Object} {m2 : JSON_Object}
    (h : document_ok (JSON_Value.object root)) (h2 : tabs_ok m2) :
    document_ok (JSON_Value.object
      (json_object_replace root key_metadata (JSON_Value.object m2))) := by
  obtain ⟨r, bs, m, u, e, hnd, hb, hm, htabs, hu, hund⟩ := h
  cases e
  obtain ⟨k1, k2, k3, k4, k5, k6⟩ := key_facts
  refine ⟨_, bs, m2, u, rfl, ?_, ?_, get_replace_same _ _ hm, h2, ?_, hund⟩
  · rw [names_replace]; exact hnd
  · rw [get_replace_ne _ _ k1]; exact hb
  · rw [get_replace_ne _ _ (Ne.symm k4)]; exact hu

/-- Writing an object with distinct names into the `user` cell keeps the document well
formed. -/
theorem document_ok_replace_user {root : JSON_Object} {u2 : JSON_Object}
    (h : document_ok (JSON_Value.object root)) (h2 : (object_names u2).Nodup) :
    document_ok (JSON_Value.object (json_object_replace root key_user (JSON_Value.object u2))) := by
  obtain ⟨r, bs, m, u, e, hnd, hb, hm, htabs, hu, hund⟩ := h
  cases e
  obtain ⟨k1, k2, k3, k4, k5, k6⟩ := key_facts
  refine ⟨_, bs, m, u2, rfl, ?_, ?_, ?_, htabs, get_replace_same _ _ hu, h2⟩
  · rw [names_replace]; exact hnd
  · rw [get_replace_ne _ _ k2]; exact hb
  · rw [get_replace_ne _ _ k4]; exact hm

theorem replace_self (o : JSON_Object) {n : String} {w : JSON_Value}
    (h : json_object_get_value o n = some w) : json_object_replace o n w = o := by
  induction o with
  | nil => rfl
  | cons c rest ih =>
    obtain ⟨k, x⟩ := c
    by_cases hk : k = n
    · simp only [json_object_get_value, hk, if_true, Option.some.injEq] at h
      simp [json_object_replace, hk, h]
    · simp only [json_object_get_value, hk, if_false] at h
      simp [json_object_replace, hk, ih h]

theorem replace_replace (o : JSON_Object) (n : String) (v w : JSON_Value) :
    json_object_replace (json_object_replace o n v) n w = json_object_replace o n w := by
  induction o with
  | nil => rfl
  | cons c rest ih =>
    obtain ⟨k, x⟩ := c
    by_cases hk : k = n
    · simp [json_object_replace, hk]
    · simp [json_object_replace, hk, ih]

/-! ## The four mutations on a well-formed document -/

theorem add_breadcrumb_value_eq {root : JSON_Object} {bs : JSON_Array} (mc : Nat)
    (b : JSON_Value)
    (hb : json_object_get_value root key_breadcrumbs = some (JSON_Value.array bs)) :
    add_breadcrumb_value mc (JSON_Value.object root) b
      = JSON_Value.object (json_object_replace root key_breadcrumbs
          (JSON_Value.array (trim_breadcrumbs mc (bs ++ [b])))) := by
  simp [add_breadcrumb_value, json_value_get_object, json_value_get_array, hb,
    json_array_append_value]

theorem document_ok_add_breadcrumb (mc : Nat) (d b : JSON_Value) (h : document_ok d) :
    document_ok (add_breadcrumb_value mc d b) := by
  obtain ⟨root, bs, m, u, e, hnd, hb, hm, htabs, hu, hund⟩ := h
  subst e
  rw [add_breadcrumb_value_eq mc b hb]
  exact document_ok_replace_breadcrumbs _ ⟨root, bs, m, u, rfl, hnd, hb, hm, htabs, hu, hund⟩

theorem document_ok_set_context (d : JSON_Value) (c : Option String) (h : document_ok d) :
    document_ok (set_context_value d c) := by
  obtain ⟨root, bs, m, u, e, hnd, hb, hm, htabs, hu, hund⟩ := h
  subst e
  obtain ⟨k1, k2, k3, k4, k5, k6⟩ := key_facts
  cases c with
  | some c =>
    refine ⟨_, bs, m, u, rfl, names_set_value_nodup _ _ _ hnd, ?_, ?_, htabs, ?_, hund⟩
    · rw [json_object_set_string, get_set_value_ne _ _ k3]; exact hb
    · rw [json_object_set_string, get_set_value_ne _ _ k5]; exact hm
    · rw [json_object_set_string, get_set_value_ne _ _ k6]; exact hu
  | none =>
    refine ⟨_, bs, m, u, rfl, names_remove_getD_nodup _ _ hnd, ?_, ?_, htabs, ?_, hund⟩
    · rw [get_remove_getD_ne _ hnd k3]; exact hb
    · rw [get_remove_getD_ne _ hnd k5]; exact hm
    · rw [get_remove_getD_ne _ hnd k6]; exact hu

theorem dotset_path_step {o sub : JSON_Object} (n n2 : String) (rest : List String)
    (v : JSON_Value) (h : json_object_get_value o n = some (JSON_Value.object sub)) :
    json_object_dotset_path o (n :: n2 :: rest) v
      = (json_object_dotset_path sub (n2 :: rest) v).map
          (fun sub2 => json_object_replace o n (JSON_Value.object sub2)) := by
  rw [json_object_dotset_path, h]

theorem dotremove_path_step {o sub : JSON_Object} (n n2 : String) (rest : List String)
    (h : json_object_get_value o n = some (JSON_Value.object sub)) :
    json_object_dotremove_path o (n :: n2 :: rest)
      = (json_object_dotremove_path sub (n2 :: rest)).map
          (fun sub2 => json_object_replace o n (JSON_Value.object sub2)) := by
  rw [json_object_dotremove_path, h]

theorem set_metadata_value_eq (P : Parson) {root m : JSON_Object} (tab key : String)
    (val : Option String)
    (hm : json_object_get_value root key_metadata = some (JSON_Value.object m)) :
    set_metadata_value P (JSON_Value.object root) (metadata_keypath tab key) val
      = match metadata_update P m (dot_split tab.data ++ dot_split key.data) val with
        | some m2 =>
          JSON_Value.object (json_object_replace root key_metadata (JSON_Value.object m2))
        | none => JSON_Value.object root := by
  obtain ⟨n1, n2, rest, hp⟩ := dot_split_pair tab.data key.data
  have hm2 : json_object_get_value root "metadata" = some (JSON_Value.object m) := hm
  cases val with
  | none =>
    simp only [set_metadata_value, json_value_get_object, json_object_dotremove,
      dot_split_keypath, hp, metadata_update]
    rw [dotremove_path_step _ _ _ hm2]
    cases json_object_dotremove_path m (n1 :: n2 :: rest) <;> rfl
  | some val =>
    simp only [set_metadata_value, json_value_get_object, metadata_update]
    cases P.json_parse_string val with
    | none => rfl
    | some v =>
      simp only [json_object_dotset_value, dot_split_keypath, hp]
      rw [dotset_path_step _ _ _ v hm2]
      cases json_object_dotset_path m (n1 :: n2 :: rest) v <;> rfl

theorem metadata_update_tabs_ok (P : Parson) {m m2 : JSON_Object} (tab key : String)
    (val : Option String) (hm : tabs_ok m)
    (h : metadata_update P m (dot_split tab.data ++ dot_split key.data) val = some m2) :
    tabs_ok m2 := by
  obtain ⟨n1, n2, rest, hp⟩ := dot_split_pair tab.data key.data
  rw [hp] at h
  cases val with
  | none => exact dotremove_path_tabs_ok n1 n2 rest hm h
  | some val =>
    simp only [metadata_update] at h
    cases hv : P.json_parse_string val with
    | none => rw [hv] at h; simp at h
    | some v =>
      rw [hv] at h
      exact dotset_path_tabs_ok n1 n2 rest v hm h

theorem document_ok_set_metadata (P : Parson) (d : JSON_Value) (tab key : String)
    (val : Option String) (h : document_ok d) :
    document_ok (set_metadata_value P d (metadata_keypath tab key) val) := by
  obtain ⟨root, bs, m, u, e, hnd, hb, hm, htabs, hu, hund⟩ := h
  subst e
  rw [set_metadata_value_eq P tab key val hm]
  cases hup : metadata_update P m (dot_split tab.data ++ dot_split key.data) val with
  | none => exact ⟨root, bs, m, u, rfl, hnd, hb, hm, htabs, hu, hund⟩
  | some m2 =>
    exact document_ok_replace_metadata ⟨root, bs, m, u, rfl, hnd, hb, hm, htabs, hu, hund⟩
      (metadata_update_tabs_ok P tab key val htabs hup)

theorem set_or_remove_string_user {root u : JSON_Object} (name field : String)
    (s : Option String) (hsplit : dot_split name.data = [key_user, field])
    (hu : json_object_get_value root key_user = some (JSON_Value.object u)) :
    set_or_remove_string root name s
      = json_object_replace root key_user (JSON_Value.object (set_or_remove_cell u field s)) := by
  cases s with
  | some s =>
    simp [set_or_remove_string, json_object_dotset_string, json_object_dotset_value, hsplit,
      json_object_dotset_path, hu, set_or_remove_cell]
  | none =>
    simp only [set_or_remove_string, json_object_dotremove, hsplit, json_object_dotremove_path,
      hu, set_or_remove_cell]
    cases json_object_remove u field with
    | none => simp [replace_self root hu]
    | some u2 => simp

theorem get_set_or_remove_cell_same (u : JSON_Object) (field : String) (s : Option String)
    (hnd : (object_names u).Nodup) :
    json_object_get_value (set_or_remove_cell u field s) field = s.map JSON_Value.string := by
  cases s with
  | some s => simp [set_or_remove_cell, get_set_value_same]
  | none => simp [set_or_remove_cell, get_remove_getD_same u field hnd]

theorem get_set_or_remove_cell_ne (u : JSON_Object) {field k : String} (s : Option String)
    (hnd : (object_names u).Nodup) (h : k ≠ field) :
    json_object_get_value (set_or_remove_cell u field s) k = json_object_get_value u k := by
  cases s with
  | some s => simp [set_or_remove_cell, get_set_value_ne _ _ h]
  | none => simp [set_or_remove_cell, get_remove_getD_ne u hnd h]

theorem names_set_or_remove_cell_nodup (u : JSON_Object) (field : String) (s : Option String)
    (hnd : (object_names u).Nodup) : (object_names (set_or_remove_cell u field s)).Nodup := by
  cases s with
  | some s => exact names_set_value_nodup _ _ _ hnd
  | none => exact names_remove_getD_nodup _ _ hnd

theorem set_user_value_eq {root u : JSON_Object} (id email name : Option String)
    (hu : json_object_get_value root key_user = some (JSON_Value.object u)) :
    set_user_value (JSON_Value.object root) id email name
      = JSON_Value.object
          (json_object_replace root key_user (JSON_Value.object (user_after u id email name))) := by
  have h1 := set_or_remove_string_user "user.id" "id" id (by decide) hu
  have hu1 := get_replace_same root (JSON_Value.object (set_or_remove_cell u "id" id)) hu
  have h2 := set_or_remove_string_user "user.email" "email" email (by decide) hu1
  have hu2 := get_replace_same _
    (JSON_Value.object (set_or_remove_cell (set_or_remove_cell u "id" id) "email" email)) hu1
  have h3 := set_or_remove_string_user "user.name" "name" name (by decide) hu2
  simp only [set_user_value, json_value_get_object]
  rw [h1, h2, h3, replace_replace, replace_replace]
  rfl

theorem document_ok_set_user (d : JSON_Value) (id email name : Option String)
    (h : document_ok d) : document_ok (set_user_value d id email name) := by
  obtain ⟨root, bs, m, u, e, hnd, hb, hm, htabs, hu, hund⟩ := h
  subst e
  rw [set_user_value_eq id email name hu]
  refine document_ok_replace_user ⟨root, bs, m, u, rfl, hnd, hb, hm, htabs, hu, hund⟩ ?_
  exact names_set_or_remove_cell_nodup _ _ _
    (names_set_or_remove_cell_nodup _ _ _ (names_set_or_remove_cell_nodup _ _ _ hund))

/-! ## The cache functions on installed states -/

theorem serialize_data_data (P : Parson) (g : becs_context) :
    (serialize_data P g).data = g.data := by
  unfold serialize_data
  cases h : g.data <;> simp [h]

theorem serialize_data_max_crumbs (P : Parson) (g : becs_context) :
    (serialize_data P g).max_crumbs = g.max_crumbs := by
  unfold serialize_data
  cases h : g.data <;> simp

theorem serialize_data_save_file_path (P : Parson) (g : becs_context) :
    (serialize_data P g).save_file_path = g.save_file_path := by
  unfold serialize_data
  cases h : g.data <;> simp

theorem serialize_data_buffer_some (P : Parson) (g : becs_context) {buf : List Char}
    (h : g.serialized_data = some buf) : ∃ buf2, (serialize_data P g).serialized_data = some buf2 := by
  unfold serialize_data
  cases hd : g.data <;> simp [h]

/-- Every mutation call either leaves the cache as it is or stores a new document and calls
`serialize_data`. -/
theorem becs_apply_cases (P : Parson) (g : becs_context) (c : becs_call) :
    becs_apply P g c = g ∨
      ∃ d d2, g.data = some d ∧
        becs_apply P g c = serialize_data P { g with data := some d2 } ∧
        (document_ok d → document_ok d2) := by
  cases hd : g.data with
  | none => left; cases c <;> simp [becs_apply, becs_add_breadcrumb, becs_set_context,
      becs_set_metadata, becs_set_user, hd]
  | some d =>
    cases c with
    | add_breadcrumb val =>
      simp only [becs_apply, becs_add_breadcrumb, hd]
      cases hv : P.json_parse_string val with
      | none => left; rfl
      | some v =>
        cases v with
        | object crumb =>
          right
          exact ⟨d, _, rfl, rfl, document_ok_add_breadcrumb _ _ _⟩
        | null => left; rfl
        | string s => left; rfl
        | number n => left; rfl
        | array a => left; rfl
        | boolean b => left; rfl
    | set_context context =>
      right
      exact ⟨d, set_context_value d context, rfl, by simp [becs_apply, becs_set_context, hd],
        document_ok_set_context _ _⟩
    | set_metadata tab key val =>
      cases tab with
      | none => left; simp [becs_apply, becs_set_metadata, hd]
      | some tab =>
        cases key with
        | none => left; simp [becs_apply, becs_set_metadata, hd]
        | some key =>
          right
          exact ⟨d, set_metadata_value P d (metadata_keypath tab key) val, rfl,
            by simp [becs_apply, becs_set_metadata, hd], document_ok_set_metadata P _ _ _ _⟩
    | set_user id email name =>
      right
      exact ⟨d, set_user_value d id email name, rfl, by simp [becs_apply, becs_set_user, hd],
        document_ok_set_user _ _ _ _⟩

theorem context_ok_install (P : Parson) (save_file_path : String) (max_crumbs : Nat) :
    context_ok (becs_install P save_file_path max_crumbs g_context) := by
  have hdoc : document_ok (JSON_Value.object
      [(key_breadcrumbs, JSON_Value.array []), (key_metadata, JSON_Value.object []),
       (key_user, JSON_Value.object [])]) := by
    refine ⟨_, [], [], [], rfl, by decide, by decide, by decide, ?_, by decide, by decide⟩
    intro c hc
    simp at hc
  exact ⟨_, json_serialize_to_buffer P (JSON_Value.object
      [(key_breadcrumbs, JSON_Value.array []), (key_metadata, JSON_Value.object []),
       (key_user, JSON_Value.object [])]) [] BECS_SERIALIZED_DATA_LEN, save_file_path, rfl, hdoc,
    rfl, rfl⟩

theorem context_ok_apply (P : Parson) (g : becs_context) (c : becs_call) (h : context_ok g) :
    context_ok (becs_apply P g c) := by
  rcases becs_apply_cases P g c with e | ⟨d, d2, hd, e, hok⟩
  · rw [e]; exact h
  · obtain ⟨d0, buf, path, hd0, hdoc, hbuf, hpath⟩ := h
    rw [hd] at hd0
    cases hd0
    rw [e]
    obtain ⟨buf2, hb2⟩ := serialize_data_buffer_some P { g with data := some d2 } hbuf
    exact ⟨d2, buf2, path, by rw [serialize_data_data], hok hdoc, hb2,
      by rw [serialize_data_save_file_path]; exact hpath⟩

theorem installed_context_ok {P : Parson} {g : becs_context} (h : Installed P g) :
    context_ok g := by
  induction h with
  | install path mc => exact context_ok_install P path mc
  | call c _ ih => exact context_ok_apply P _ c ih

theorem installed_of_fitting {P : Parson} {g : becs_context} (h : InstalledFitting P g) :
    Installed P g := by
  induction h with
  | install path mc _ => exact Installed.install path mc
  | call c _ _ ih => exact Installed.call c ih

/-! ## Breadcrumb trimming -/

theorem json_array_remove_first (b : JSON_Value) (rest : JSON_Array) :
    json_array_remove (b :: rest) 0 = some rest := by
  simp [json_array_remove]

theorem trim_breadcrumbs_eq_drop (mc : Nat) (l : JSON_Array) :
    trim_breadcrumbs mc l = l.drop (l.length - mc) := by
  induction l with
  | nil => simp [trim_breadcrumbs]
  | cons b rest ih =>
    by_cases h : (b :: rest).length > mc
    · simp only [trim_breadcrumbs, json_array_get_count, h, if_true, ih]
      have h2 : (b :: rest).length - mc = (rest.length - mc) + 1 := by
        simp only [List.length_cons] at h ⊢
        omega
      rw [h2, List.drop_succ_cons]
    · simp only [trim_breadcrumbs, json_array_get_count, h, if_false]
      have h2 : (b :: rest).length - mc = 0 := by omega
      rw [h2, List.drop_zero]

theorem trim_fold_eq_drop (mc : Nat) (os : JSON_Array) :
    ∀ xs : JSON_Array, xs.length ≤ mc →
      os.foldl (fun acc o => trim_breadcrumbs mc (acc ++ [o])) xs
        = (xs ++ os).drop ((xs ++ os).length - mc) := by
  induction os with
  | nil =>
    intro xs hx
    have h0 : xs.length - mc = 0 := by omega
    simp only [List.foldl_nil, List.append_nil, h0, List.drop_zero]
  | cons o rest ih =>
    intro xs hx
    have hlen : (trim_breadcrumbs mc (xs ++ [o])).length ≤ mc := by
      rw [trim_breadcrumbs_eq_drop]
      simp only [List.length_drop, List.length_append, List.length_singleton]
      omega
    rw [List.foldl_cons, ih _ hlen, trim_breadcrumbs_eq_drop]
    by_cases hfull : xs.length + 1 ≤ mc
    · have h0 : (xs ++ [o]).length - mc = 0 := by
        simp only [List.length_append, List.length_singleton]; omega
      rw [h0, List.drop_zero, List.append_assoc, List.singleton_append]
    · have hk : (xs ++ [o]).length - mc = 1 := by
        simp only [List.length_append, List.length_singleton]; omega
      rw [hk]
      have e1 : (List.drop 1 (xs ++ [o]) ++ rest).length - mc = rest.length := by
        simp only [List.length_append, List.length_drop, List.length_singleton]; omega
      have e2 : (xs ++ o :: rest).length - mc = 1 + rest.length := by
        simp only [List.length_append, List.length_cons]; omega
      rw [e1, e2, ← List.drop_drop]
      congr 1
      cases xs with
      | nil => simp
      | cons x xs2 => simp

theorem breadcrumbs_of_add (P : Parson) (g : becs_context) (val : String) (o : JSON_Object)
    (xs : JSON_Array) (hx : breadcrumbs_of g = some xs)
    (hv : P.json_parse_string val = some (JSON_Value.object o)) :
    breadcrumbs_of (becs_add_breadcrumb P val g)
        = some (trim_breadcrumbs g.max_crumbs (xs ++ [JSON_Value.object o])) ∧
      (becs_add_breadcrumb P val g).max_crumbs = g.max_crumbs := by
  unfold breadcrumbs_of document_field at hx
  cases hd : g.data with
  | none => simp [hd, json_value_get_object, json_value_get_array] at hx
  | some d =>
    cases d with
    | object root =>
      simp only [hd, json_value_get_object] at hx
      cases hb : json_object_get_value root key_breadcrumbs with
      | none => simp [hb, json_value_get_array] at hx
      | some w =>
        cases w with
        | array bs =>
          simp only [hb, json_value_get_array, Option.some.injEq] at hx
          subst hx
          simp only [becs_add_breadcrumb, hd, hv, serialize_data_max_crumbs, and_true]
          simp only [breadcrumbs_of, document_field, serialize_data_data,
            add_breadcrumb_value_eq _ _ hb, json_value_get_object, get_replace_same _ _ hb,
            json_value_get_array]
        | null => simp [hb, json_value_get_array] at hx
        | string s => simp [hb, json_value_get_array] at hx
        | number n => simp [hb, json_value_get_array] at hx
        | object o2 => simp [hb, json_value_get_array] at hx
        | boolean b => simp [hb, json_value_get_array] at hx
    | null => simp [hd, json_value_get_object, json_value_get_array] at hx
    | string s => simp [hd, json_value_get_object, json_value_get_array] at hx
    | number n => simp [hd, json_value_get_object, json_value_get_array] at hx
    | array a => simp [hd, json_value_get_object, json_value_get_array] at hx
    | boolean b => simp [hd, json_value_get_object, json_value_get_array] at hx

theorem breadcrumbs_of_fold (P : Parson) (vals : List String) :
    ∀ (os : List JSON_Object) (g : becs_context) (xs : JSON_Array),
      vals.map P.json_parse_string = os.map (fun o => some (JSON_Value.object o)) →
      breadcrumbs_of g = some xs →
      breadcrumbs_of (vals.foldl (fun acc val => becs_add_breadcrumb P val acc) g)
        = some ((os.map JSON_Value.object).foldl
            (fun acc o => trim_breadcrumbs g.max_crumbs (acc ++ [o])) xs) := by
  induction vals with
  | nil =>
    intro os g xs hp hx
    cases os with
    | nil => simpa using hx
    | cons o rest => simp at hp
  | cons val rest ih =>
    intro os g xs hp hx
    cases os with
    | nil => simp at hp
    | cons o os2 =>
      simp only [List.map_cons, List.cons.injEq] at hp
      obtain ⟨h1, h2⟩ := breadcrumbs_of_add P g val o xs hx hp.1
      have := ih os2 (becs_add_breadcrumb P val g) _ hp.2 h1
      rw [h2] at this
      simpa using this

theorem breadcrumbs_of_array {g : becs_context} {xs : JSON_Array}
    (h : breadcrumbs_of g = some xs) :
    document_field g key_breadcrumbs = some (JSON_Value.array xs) := by
  unfold breadcrumbs_of at h
  cases hf : document_field g key_breadcrumbs with
  | none => simp [hf, json_value_get_array] at h
  | some w =>
    cases w <;> simp [hf, json_value_get_array] at h
    rw [h]

/-! ## Metadata addressed by a tab and a key -/

theorem dot_split_plain (tab key : String) (htab : '.' ∉ tab.data) (hkey : '.' ∉ key.data) :
    dot_split tab.data ++ dot_split key.data = [tab, key] := by
  rw [dot_split_no_dot _ htab, dot_split_no_dot _ hkey]
  rfl

/-- The document of an installed cache after `becs_set_metadata` with a tab and a key. -/
theorem set_metadata_data (P : Parson) (g : becs_context) (tab key : String)
    (val : Option String) (h : context_ok g) :
    ∃ root m, g.data = some (JSON_Value.object root) ∧ (object_names root).Nodup ∧
      json_object_get_value root key_metadata = some (JSON_Value.object m) ∧ tabs_ok m ∧
      (becs_set_metadata P (some tab) (some key) val g).data
        = some (JSON_Value.object (json_object_replace root key_metadata (JSON_Value.object
            ((metadata_update P m (dot_split tab.data ++ dot_split key.data) val).getD m)))) := by
  obtain ⟨d, buf, path, hd, ⟨root, bs, m, u, e, hnd, hb, hm, htabs, hu, hund⟩, hbuf, hpath⟩ := h
  subst e
  refine ⟨root, m, hd, hnd, hm, htabs, ?_⟩
  simp only [becs_set_metadata, hd, serialize_data_data, set_metadata_value_eq P tab key val hm]
  cases metadata_update P m (dot_split tab.data ++ dot_split key.data) val with
  | none => simp [replace_self root hm]
  | some m2 => simp

theorem dotset_two (m : JSON_Object) (tab key : String) (v : JSON_Value) (hm : tabs_ok m) :
    ∃ m2 t2, json_object_dotset_path m [tab, key] v = some m2 ∧
      json_object_get_value m2 tab = some (JSON_Value.object t2) ∧
      json_object_get_value t2 key = some v := by
  cases hg : json_object_get_value m tab with
  | none =>
    refine ⟨m ++ [(tab, JSON_Value.object (json_object_set_value [] key v))],
      json_object_set_value [] key v, ?_, ?_, get_set_value_same _ _ _⟩
    · simp [json_object_dotset_path, hg]
    · rw [get_append_none m _ hg]; simp
  | some w =>
    obtain ⟨t, e, _⟩ := tabs_ok_get hm hg
    subst e
    refine ⟨json_object_replace m tab (JSON_Value.object (json_object_set_value t key v)),
      json_object_set_value t key v, ?_, get_replace_same _ _ hg, get_set_value_same _ _ _⟩
    rw [dotset_path_step _ _ _ v hg]
    simp [json_object_dotset_path]

theorem dotremove_two (m : JSON_Object) (tab key : String) (hm : tabs_ok m) :
    (json_object_dotremove_path m [tab, key]).getD m = m ∧
        json_object_get_value m tab = none ∨
      ∃ t, json_object_get_value m tab = some (JSON_Value.object t) ∧ (object_names t).Nodup ∧
        (json_object_dotremove_path m [tab, key]).getD m
          = json_object_replace m tab
              (JSON_Value.object ((json_object_remove t key).getD t)) := by
  cases hg : json_object_get_value m tab with
  | none =>
    left
    simp [json_object_dotremove_path, hg]
  | some w =>
    right
    obtain ⟨t, e, hnd⟩ := tabs_ok_get hm hg
    subst e
    refine ⟨t, rfl, hnd, ?_⟩
    rw [dotremove_path_step _ _ _ hg]
    simp only [json_object_dotremove_path]
    cases json_object_remove t key with
    | none => simp [replace_self m hg]
    | some t2 => simp

theorem document_field_of_data {g : becs_context} {root : JSON_Object}
    (h : g.data = some (JSON_Value.object root)) (k : String) :
    document_field g k = json_object_get_value root k := by
  simp [document_field, h, json_value_get_object]

/-! ## The serialized buffer -/

theorem serialize_data_fits (P : Parson) (g : becs_context) {d : JSON_Value} {buf : List Char}
    (hd : g.data = some d) (hb : g.serialized_data = some buf)
    (hfit : json_serialization_size P d ≤ BECS_SERIALIZED_DATA_LEN) :
    buffer_holds_document P (serialize_data P g) := by
  have hlt : ¬ BECS_SERIALIZED_DATA_LEN < json_serialization_size P d := by omega
  have htake : List.take (P.json_serialize d).length
      ((P.json_serialize d ++ [Char.ofNat 0]) ++
        buf.drop (P.json_serialize d ++ [Char.ofNat 0]).length) = P.json_serialize d := by
    rw [List.append_assoc, List.take_left]
  refine ⟨d, json_serialize_to_buffer P d buf BECS_SERIALIZED_DATA_LEN, ?_, ?_, ?_, ?_, ?_, ?_, ?_⟩
  · rw [serialize_data_data, hd]
  · simp [serialize_data, hd, hb]
  · simp only [serialize_data, hd, json_serialize_to_buffer, hlt, if_false]
    simp [json_serialization_size]
  · simp [serialize_data, hd, json_serialization_size]
  · simp [serialize_data, hd, json_serialization_size]
  · simp only [serialize_data, hd, json_serialize_to_buffer, hlt, if_false]
    have e : json_serialization_size P d - 1 = (P.json_serialize d).length := by
      simp [json_serialization_size]
    rw [e, List.append_assoc, List.getElem?_append_right (le_refl _)]
    simp
  · intro hp
    simp only [serialize_data, hd, json_serialize_to_buffer, hlt, if_false]
    have : json_serialization_size P d - 1 = (P.json_serialize d).length := by
      simp [json_serialization_size]
    rw [this, htake]
    exact hp

theorem serialize_data_overflow (P : Parson) (g : becs_context) {d : JSON_Value}
    (hd : g.data = some d)
    (hover : BECS_SERIALIZED_DATA_LEN < json_serialization_size P d) :
    (serialize_data P g).serialized_data = g.serialized_data ∧
      (serialize_data P g).serialized_data_len = json_serialization_size P d - 1 := by
  simp only [serialize_data, hd, json_serialize_to_buffer, hover, if_true, and_true]
  cases g.serialized_data <;> simp

/-! ## Bounded breadcrumbs -/

/-- C1: after `becs_add_breadcrumb` on N > max_crumbs valid JSON-object breadcrumbs, in order,
on a freshly installed cache (max_crumbs in 0..255), the `breadcrumbs` array holds exactly the
last max_crumbs of them in their original order. -/
theorem becs_add_breadcrumb_keeps_last (P : Parson) (save_file_path : String) (max_crumbs : Nat)
    (vals : List String) (os : List JSON_Object) (hmax : max_crumbs ≤ 255)
    (hparse : vals.map P.json_parse_string = os.map (fun o => some (JSON_Value.object o)))
    (hlen : max_crumbs < vals.length) :
    document_field
        (vals.foldl (fun g val => becs_add_breadcrumb P val g)
          (becs_install P save_file_path max_crumbs g_context)) key_breadcrumbs
      = some (JSON_Value.array ((os.map JSON_Value.object).drop (os.length - max_crumbs))) ∧
    ((os.map JSON_Value.object).drop (os.length - max_crumbs)).length = max_crumbs := by
  have hlen2 : os.length = vals.length := by
    have := congrArg List.length hparse
    simpa using this.symm
  have h0 : breadcrumbs_of (becs_install P save_file_path max_crumbs g_context) = some [] := rfl
  have hmc : (becs_install P save_file_path max_crumbs g_context).max_crumbs = max_crumbs := by
    show max_crumbs % 256 = max_crumbs
    omega
  have hfold := breadcrumbs_of_fold P vals os _ [] hparse h0
  rw [hmc, trim_fold_eq_drop max_crumbs _ [] (Nat.zero_le _)] at hfold
  constructor
  · have := breadcrumbs_of_array hfold
    simpa using this
  · simp only [List.length_drop, List.length_map]
    omega

theorem becs_add_breadcrumb_keeps_last_witness :
    document_field
        (["\x7b\"name\":\"A\"\x7d", "\x7b\"name\":\"B\"\x7d", "\x7b\"name\":\"C\"\x7d",
          "\x7b\"name\":\"D\"\x7d"].foldl (fun g val => becs_add_breadcrumb sample_parson val g)
          (becs_install sample_parson "state.json" 3 g_context)) key_breadcrumbs
      = some (JSON_Value.array
          [JSON_Value.object [("name", JSON_Value.string "B")],
           JSON_Value.object [("name", JSON_Value.string "C")],
           JSON_Value.object [("name", JSON_Value.string "D")]]) :=
  (becs_add_breadcrumb_keeps_last sample_parson "state.json" 3
    ["\x7b\"name\":\"A\"\x7d", "\x7b\"name\":\"B\"\x7d", "\x7b\"name\":\"C\"\x7d",
      "\x7b\"name\":\"D\"\x7d"]
    [[("name", JSON_Value.string "A")], [("name", JSON_Value.string "B")],
      [("name", JSON_Value.string "C")], [("name", JSON_Value.string "D")]]
    (by decide) (by decide) (by decide)).1

/-! ## Malformed breadcrumbs -/

/-- C5: `becs_add_breadcrumb` on text that does not parse as a JSON object (unparsable, or
valid JSON of another type) returns the cache as it was: document, buffer and length are
unchanged. -/
theorem becs_add_breadcrumb_malformed_noop (P : Parson) (g : becs_context) (val : String)
    (h : json_value_get_object (P.json_parse_string val) = none) :
    becs_add_breadcrumb P val g = g := by
  unfold becs_add_breadcrumb
  cases hd : g.data with
  | none => rfl
  | some d =>
    cases hv : P.json_parse_string val with
    | none => rfl
    | some v =>
      cases v with
      | object o => simp [hv, json_value_get_object] at h
      | null => rfl
      | string s => rfl
      | number n => rfl
      | array a => rfl
      | boolean b => rfl

theorem becs_add_breadcrumb_malformed_noop_witness :
    becs_add_breadcrumb sample_parson "not json"
          (becs_install sample_parson "state.json" 3 g_context)
        = becs_install sample_parson "state.json" 3 g_context ∧
      becs_add_breadcrumb sample_parson "[1]"
          (becs_install sample_parson "state.json" 3 g_context)
        = becs_install sample_parson "state.json" 3 g_context :=
  ⟨becs_add_breadcrumb_malformed_noop sample_parson
      (becs_install sample_parson "state.json" 3 g_context) "not json" (by decide),
    becs_add_breadcrumb_malformed_noop sample_parson
      (becs_install sample_parson "state.json" 3 g_context) "[1]" (by decide)⟩

/-! ## Install while installed -/

/-- C8: on an installed cache `becs_install`, with any path and any max_crumbs, returns the
cache unchanged (path, max_crumbs, document, buffer and length); in particular installing twice
with the same arguments gives the state of installing once. -/
theorem becs_install_installed_noop (P : Parson) (g : becs_context) (save_file_path : String)
    (max_crumbs : Nat) (h : Installed P g) :
    becs_install P save_file_path max_crumbs g = g ∧
      becs_install P save_file_path max_crumbs
          (becs_install P save_file_path max_crumbs g_context)
        = becs_install P save_file_path max_crumbs g_context := by
  have key : ∀ g2, Installed P g2 → becs_install P save_file_path max_crumbs g2 = g2 := by
    intro g2 h2
    obtain ⟨d, buf, path, hd, _, _, _⟩ := installed_context_ok h2
    simp [becs_install, hd]
  exact ⟨key g h, key _ (Installed.install save_file_path max_crumbs)⟩

theorem becs_install_installed_noop_witness :
    becs_install sample_parson "other.json" 7
        (becs_add_breadcrumb sample_parson "\x7b\"name\":\"A\"\x7d"
          (becs_install sample_parson "state.json" 3 g_context))
      = becs_add_breadcrumb sample_parson "\x7b\"name\":\"A\"\x7d"
          (becs_install sample_parson "state.json" 3 g_context) :=
  (becs_install_installed_noop sample_parson _ "other.json" 7
    (Installed.call (becs_call.add_breadcrumb "\x7b\"name\":\"A\"\x7d")
      (Installed.install "state.json" 3))).1

/-! ## The serialization invariant -/

theorem fits_buffer_iff (P : Parson) (g : becs_context) {d : JSON_Value} (hd : g.data = some d) :
    fits_buffer P g ↔ json_serialization_size P d ≤ BECS_SERIALIZED_DATA_LEN := by
  simp [fits_buffer, hd]

theorem fitting_fits {P : Parson} {g : becs_context} (h : InstalledFitting P g) :
    fits_buffer P g := by
  cases h with
  | install path mc hf => exact hf
  | call c _ hf => exact hf

/-- In every installed state, fitting or not, `serialized_data_len` is the length of the
serialization of the current document: `serialize_data` stores it before it tries the buffer. -/
theorem installed_length (P : Parson) (g : becs_context) (h : Installed P g) :
    ∃ d, g.data = some d ∧ g.serialized_data_len = (P.json_serialize d).length := by
  induction h with
  | install path mc =>
    exact ⟨_, rfl, by simp [becs_install, g_context, serialize_data, json_serialization_size]⟩
  | call c hg ih =>
    rename_i g0
    rcases becs_apply_cases P g0 c with e | ⟨d, d2, hd, e, _⟩
    · rw [e]; exact ih
    · refine ⟨d2, by rw [e, serialize_data_data], ?_⟩
      rw [e]
      simp [serialize_data, json_serialization_size]

/-- C2: in every installed state reached through documents whose serialization, with its
terminator, fits in the 1 MiB buffer, the first `serialized_data_len` bytes of `serialized_data`
are exactly the serialization of the current document (so re-parsing them gives what re-parsing
that serialization gives), and `serialized_data_len` is the length of that serialization
without the terminator. -/
theorem serialized_buffer_holds_document (P : Parson) (g : becs_context)
    (h : InstalledFitting P g) : buffer_holds_document P g := by
  induction h with
  | install path mc hf =>
    have hd : (becs_install P path mc g_context).data
        = some (JSON_Value.object
            [(key_breadcrumbs, JSON_Value.array []), (key_metadata, JSON_Value.object []),
             (key_user, JSON_Value.object [])]) := rfl
    rw [fits_buffer_iff P _ hd] at hf
    exact serialize_data_fits P
      { g_context with
        save_file_path := some path
        max_crumbs := mc % 256
        data := some (JSON_Value.object
            [(key_breadcrumbs, JSON_Value.array []), (key_metadata, JSON_Value.object []),
             (key_user, JSON_Value.object [])])
        serialized_data := some [] } rfl rfl hf
  | call c hg hf ih =>
    rename_i g0
    rcases becs_apply_cases P g0 c with e | ⟨d, d2, hd, e, _⟩
    · rw [e]; exact ih
    · obtain ⟨d0, buf, _, hbuf, _⟩ := ih
      have hd2 : (becs_apply P g0 c).data = some d2 := by rw [e, serialize_data_data]
      rw [fits_buffer_iff P _ hd2] at hf
      rw [e]
      exact serialize_data_fits P { g0 with data := some d2 } rfl hbuf hf

theorem serialized_buffer_holds_document_witness :
    buffer_holds_document sample_parson
        (becs_add_breadcrumb sample_parson "\x7b\"name\":\"A\"\x7d"
          (becs_install sample_parson "state.json" 3 g_context)) ∧
      (becs_add_breadcrumb sample_parson "\x7b\"name\":\"A\"\x7d"
          (becs_install sample_parson "state.json" 3 g_context)).serialized_data_len = 54 ∧
      (becs_install sample_parson "state.json" 3 g_context).serialized_data_len = 42 ∧
      (becs_install sample_parson "state.json" 3 g_context).serialized_data.map
          (fun buf => sample_parson.json_parse_string (String.mk (buf.take 42)))
        = some (becs_install sample_parson "state.json" 3 g_context).data :=
  ⟨serialized_buffer_holds_document sample_parson _
      (InstalledFitting.call (becs_call.add_breadcrumb "\x7b\"name\":\"A\"\x7d")
        (InstalledFitting.install "state.json" 3 (by decide)) (by decide)),
    by decide, by decide, by decide⟩

/-! ## Persisting to disk -/

theorem buffer_read_length (buf : List Char) (n : Nat) : (buffer_read buf n).length = n := by
  simp only [buffer_read, List.length_append, List.length_take, List.length_replicate]
  omega

/-- C3: `becs_persist_to_disk` opens the file without truncating it: when the file already
exists, its first `serialized_data_len` bytes become the serialized buffer and the bytes it had
beyond them stay, so a longer previous content leaves a stale tail after the serialization. -/
theorem becs_persist_to_disk_keeps_tail (g : becs_context) (fs : FileSystem) (path : String)
    (buf old : List Char) (hp : g.save_file_path = some path)
    (hb : g.serialized_data = some buf) (hold : fs path = some old)
    (hlong : g.serialized_data_len < old.length) :
    becs_persist_to_disk true g fs path
        = some (buffer_read buf g.serialized_data_len ++ old.drop g.serialized_data_len) ∧
      becs_persist_to_disk true g fs path ≠ some (buffer_read buf g.serialized_data_len) := by
  have e : becs_persist_to_disk true g fs path
      = some (buffer_read buf g.serialized_data_len ++ old.drop g.serialized_data_len) := by
    simp [becs_persist_to_disk, hp, hb, hold, write_at_start, buffer_read_length]
  refine ⟨e, ?_⟩
  rw [e]
  intro h
  have hl := congrArg (fun o => (o.getD []).length) h
  simp only [Option.getD_some, List.length_append, List.length_drop, buffer_read_length] at hl
  omega

theorem becs_persist_to_disk_keeps_tail_witness :
    becs_persist_to_disk true (becs_install sample_parson "state.json" 3 g_context)
        (fun p => if p = "state.json" then some (List.replicate 44 'x') else none) "state.json"
      = some ("\x7b\"breadcrumbs\":[],\"metadata\":\x7b\x7d,\"user\":\x7b\x7d\x7dxx".data) :=
  (becs_persist_to_disk_keeps_tail (becs_install sample_parson "state.json" 3 g_context)
    (fun p => if p = "state.json" then some (List.replicate 44 'x') else none) "state.json"
    ("\x7b\"breadcrumbs\":[],\"metadata\":\x7b\x7d,\"user\":\x7b\x7d\x7d".data ++ [Char.ofNat 0])
    (List.replicate 44 'x') (by decide) (by decide) (by decide) (by decide)).1.trans (by decide)

/-! ## Exceeding the buffer capacity -/

/-- C4: when a mutation on an installed cache (whose earlier documents all fitted) produces a
document whose serialization exceeds the buffer, `serialized_data` is left as it was, yet
`serialized_data_len` is overwritten with the length of the serialization that was not
written: it is no longer the length of the previous contents and reaches past the buffer. -/
theorem capacity_exceeded_overwrites_length (P : Parson) (g : becs_context) (c : becs_call)
    (h : InstalledFitting P g) (hover : ¬ fits_buffer P (becs_apply P g c)) :
    (becs_apply P g c).serialized_data = g.serialized_data ∧
      (∃ d2, (becs_apply P g c).data = some d2 ∧
        (becs_apply P g c).serialized_data_len = (P.json_serialize d2).length) ∧
      g.serialized_data_len < BECS_SERIALIZED_DATA_LEN ∧
      BECS_SERIALIZED_DATA_LEN ≤ (becs_apply P g c).serialized_data_len := by
  obtain ⟨d0, hd0, hsize⟩ := installed_length P g (installed_of_fitting h)
  have hfit := (fits_buffer_iff P g hd0).1 (fitting_fits h)
  have hs0 : json_serialization_size P d0 = (P.json_serialize d0).length + 1 := rfl
  rcases becs_apply_cases P g c with e | ⟨d, d2, hd, e, _⟩
  · rw [e] at hover
    exact absurd (fitting_fits h) hover
  · have hd2 : (becs_apply P g c).data = some d2 := by rw [e, serialize_data_data]
    rw [fits_buffer_iff P _ hd2] at hover
    have hov : BECS_SERIALIZED_DATA_LEN < json_serialization_size P d2 := by omega
    obtain ⟨h1, h2⟩ := serialize_data_overflow P { g with data := some d2 } rfl hov
    rw [← e] at h1 h2
    have hs : json_serialization_size P d2 = (P.json_serialize d2).length + 1 := rfl
    refine ⟨h1, ⟨d2, hd2, by rw [h2, hs]; rfl⟩, by omega, by rw [h2]; omega⟩

/-! ## Metadata addressing with an absent tab or key -/

/-- C10 (amended): `becs_set_metadata` called with an absent (NULL) tab or an absent key returns
the cache as it was, whatever the value: document, buffer and length are unchanged. -/
theorem becs_set_metadata_absent_name_noop (P : Parson) (g : becs_context)
    (tab key val : Option String) :
    becs_set_metadata P none key val g = g ∧ becs_set_metadata P tab none val g = g := by
  constructor
  · unfold becs_set_metadata
    cases g.data <;> rfl
  · unfold becs_set_metadata
    cases g.data with
    | none => rfl
    | some d => cases tab <;> rfl

/-- C10 fails as stated: with an empty tab string (or an empty key string) and a valid value,
`becs_set_metadata` creates the entry under the empty name, so the document, the buffer and the
length all change. -/
theorem becs_set_metadata_empty_name_counterexample :
    (becs_set_metadata sample_parson (some "") (some "k") (some "1")
        (becs_install sample_parson "state.json" 3 g_context)).data
      = some (JSON_Value.object
          [("breadcrumbs", JSON_Value.array []),
           ("metadata", JSON_Value.object
              [("", JSON_Value.object [("k", JSON_Value.number 1)])]),
           ("user", JSON_Value.object [])]) ∧
    (becs_set_metadata sample_parson (some "") (some "k") (some "1")
        (becs_install sample_parson "state.json" 3 g_context)).data
      ≠ (becs_install sample_parson "state.json" 3 g_context).data ∧
    (becs_set_metadata sample_parson (some "t") (some "") (some "1")
        (becs_install sample_parson "state.json" 3 g_context)).data
      ≠ (becs_install sample_parson "state.json" 3 g_context).data ∧
    (becs_set_metadata sample_parson (some "") (some "k") (some "1")
        (becs_install sample_parson "state.json" 3 g_context)).serialized_data_len
      ≠ (becs_install sample_parson "state.json" 3 g_context).serialized_data_len := by
  decide

/-! ## The user fields -/

/-- C9: after `becs_set_user(id, email, name)` on an installed cache each of `user.id`,
`user.email` and `user.name` is the given string when its argument is present and absent from
the `user` object when its argument is absent, whatever the other two arguments and the
previous values are; `user` is still an object, and breadcrumbs, context and metadata are
unchanged. -/
theorem becs_set_user_sets_or_removes (P : Parson) (g : becs_context)
    (id email name : Option String) (h : Installed P g) :
    user_field (becs_set_user P id email name g) "id" = id.map JSON_Value.string ∧
      user_field (becs_set_user P id email name g) "email" = email.map JSON_Value.string ∧
      user_field (becs_set_user P id email name g) "name" = name.map JSON_Value.string ∧
      (∃ u, document_field (becs_set_user P id email name g) key_user
        = some (JSON_Value.object u)) ∧
      document_field (becs_set_user P id email name g) key_breadcrumbs
        = document_field g key_breadcrumbs ∧
      document_field (becs_set_user P id email name g) key_context
        = document_field g key_context ∧
      document_field (becs_set_user P id email name g) key_metadata
        = document_field g key_metadata := by
  obtain ⟨d, buf, path, hd, ⟨root, bs, m, u, e, hnd, hb, hm, htabs, hu, hund⟩, hbuf, hpath⟩ :=
    installed_context_ok h
  subst e
  obtain ⟨k1, k2, k3, k4, k5, k6⟩ := key_facts
  have hd2 : (becs_set_user P id email name g).data
      = some (JSON_Value.object (json_object_replace root key_user
          (JSON_Value.object (user_after u id email name)))) := by
    simp only [becs_set_user, hd, serialize_data_data, set_user_value_eq id email name hu]
  have hfield : ∀ k, document_field (becs_set_user P id email name g) k
      = json_object_get_value (json_object_replace root key_user
          (JSON_Value.object (user_after u id email name))) k :=
    fun k => document_field_of_data hd2 k
  have huser : document_field (becs_set_user P id email name g) key_user
      = some (JSON_Value.object (user_after u id email name)) := by
    rw [hfield, get_replace_same _ _ hu]
  have huf : ∀ k, user_field (becs_set_user P id email name g) k
      = json_object_get_value (user_after u id email name) k := by
    intro k
    simp [user_field, huser, json_value_get_object]
  have hn1 := names_set_or_remove_cell_nodup u "id" id hund
  have hn2 := names_set_or_remove_cell_nodup _ "email" email hn1
  refine ⟨?_, ?_, ?_, ⟨_, huser⟩, ?_, ?_, ?_⟩
  · rw [huf, user_after, get_set_or_remove_cell_ne _ _ hn2 (by decide),
      get_set_or_remove_cell_ne _ _ hn1 (by decide), get_set_or_remove_cell_same _ _ _ hund]
  · rw [huf, user_after, get_set_or_remove_cell_ne _ _ hn2 (by decide),
      get_set_or_remove_cell_same _ _ _ hn1]
  · rw [huf, user_after, get_set_or_remove_cell_same _ _ _ hn2]
  · rw [hfield, get_replace_ne _ _ k2, document_field_of_data hd]
  · rw [hfield, get_replace_ne _ _ (Ne.symm k6), document_field_of_data hd]
  · rw [hfield, get_replace_ne _ _ k4, document_field_of_data hd]

theorem becs_set_user_sets_or_removes_witness :
    user_field (becs_set_user sample_parson none (some "b@example.com") none
        (becs_set_user sample_parson (some "1") (some "a@example.com") (some "Ann")
          (becs_install sample_parson "state.json" 3 g_context))) "id" = none ∧
      user_field (becs_set_user sample_parson none (some "b@example.com") none
        (becs_set_user sample_parson (some "1") (some "a@example.com") (some "Ann")
          (becs_install sample_parson "state.json" 3 g_context))) "email"
        = some (JSON_Value.string "b@example.com") :=
  have h := becs_set_user_sets_or_removes sample_parson
    (becs_set_user sample_parson (some "1") (some "a@example.com") (some "Ann")
      (becs_install sample_parson "state.json" 3 g_context))
    none (some "b@example.com") none
    (Installed.call (becs_call.set_user (some "1") (some "a@example.com") (some "Ann"))
      (Installed.install "state.json" 3))
  ⟨h.1, h.2.1⟩

/-! ## Setting metadata -/

/-- C6 (amended): for a tab and a key that contain no dot and a value text that parses as JSON,
after `becs_set_metadata(tab, key, value)` on an installed cache the document has under
`metadata` an entry named exactly tab that is an object whose entry named exactly key is the
parsed value; and when the new document fits the buffer, the buffer holds the serialization of
this document. -/
theorem becs_set_metadata_round_trip (P : Parson) (g : becs_context) (tab key val : String)
    (v : JSON_Value) (h : Installed P g) (htab : '.' ∉ tab.data) (hkey : '.' ∉ key.data)
    (hv : P.json_parse_string val = some v) :
    metadata_entry (becs_set_metadata P (some tab) (some key) (some val) g) tab key = some v ∧
      (fits_buffer P (becs_set_metadata P (some tab) (some key) (some val) g) →
        buffer_holds_document P (becs_set_metadata P (some tab) (some key) (some val) g)) := by
  have hok := installed_context_ok h
  obtain ⟨root, m, hd, hnd, hm, htabs, hd2⟩ := set_metadata_data P g tab key (some val) hok
  obtain ⟨m2, t2, hset, hg1, hg2⟩ := dotset_two m tab key v htabs
  rw [dot_split_plain tab key htab hkey] at hd2
  simp only [metadata_update, hv, hset, Option.getD_some] at hd2
  constructor
  · simp [metadata_entry, document_field_of_data hd2, get_replace_same _ _ hm,
      json_value_get_object, hg1, hg2]
  · intro hfit
    obtain ⟨d, buf, path, hd0, _, hbuf, _⟩ := hok
    rw [fits_buffer_iff P _ hd2] at hfit
    have e : becs_set_metadata P (some tab) (some key) (some val) g
        = serialize_data P
            { g with data := some (set_metadata_value P d (metadata_keypath tab key) (some val)) } := by
      simp [becs_set_metadata, hd0]
    have hd3 := hd2
    rw [e, serialize_data_data] at hd3
    rw [e]
    exact serialize_data_fits P _ hd3 hbuf hfit

theorem becs_set_metadata_round_trip_witness :
    metadata_entry (becs_set_metadata sample_parson (some "device") (some "battery")
        (some "\x7b\"level\":80\x7d") (becs_install sample_parson "state.json" 3 g_context))
        "device" "battery"
      = some (JSON_Value.object [("level", JSON_Value.number 80)]) :=
  (becs_set_metadata_round_trip sample_parson
    (becs_install sample_parson "state.json" 3 g_context) "device" "battery"
    "\x7b\"level\":80\x7d" (JSON_Value.object [("level", JSON_Value.number 80)])
    (Installed.install "state.json" 3) (by decide) (by decide) (by decide)).1

/-- C6 fails as stated: with the tab "a.b" the value is stored at `metadata.a.b.c`, and
`metadata` has no entry named "a.b". -/
theorem becs_set_metadata_dotted_tab_counterexample :
    sample_parson.json_parse_string "1" = some (JSON_Value.number 1) ∧
      metadata_entry (becs_set_metadata sample_parson (some "a.b") (some "c") (some "1")
        (becs_install sample_parson "state.json" 3 g_context)) "a.b" "c" = none ∧
      metadata_tab (becs_set_metadata sample_parson (some "a.b") (some "c") (some "1")
        (becs_install sample_parson "state.json" 3 g_context)) "a.b" = none ∧
      metadata_tab (becs_set_metadata sample_parson (some "a.b") (some "c") (some "1")
        (becs_install sample_parson "state.json" 3 g_context)) "a"
        = some (JSON_Value.object [("b", JSON_Value.object [("c", JSON_Value.number 1)])]) := by
  decide

/-! ## Clearing metadata -/

/-- C7 (amended): for a tab and a key that contain no dot, `becs_set_metadata(tab, key, absent)`
on an installed cache yields a document in which `metadata.<tab>` has no entry key, while every
other key of that tab, every other tab, and the breadcrumbs, context and user fields are
unchanged; a tab that was present is still present, also when no key remains in it. -/
theorem becs_clear_metadata_removes_one_path (P : Parson) (g : becs_context) (tab key : String)
    (h : Installed P g) (htab : '.' ∉ tab.data) (hkey : '.' ∉ key.data) :
    metadata_entry (becs_set_metadata P (some tab) (some key) none g) tab key = none ∧
      (∀ k, k ≠ key → metadata_entry (becs_set_metadata P (some tab) (some key) none g) tab k
        = metadata_entry g tab k) ∧
      (∀ t, t ≠ tab → metadata_tab (becs_set_metadata P (some tab) (some key) none g) t
        = metadata_tab g t) ∧
      document_field (becs_set_metadata P (some tab) (some key) none g) key_breadcrumbs
        = document_field g key_breadcrumbs ∧
      document_field (becs_set_metadata P (some tab) (some key) none g) key_context
        = document_field g key_context ∧
      document_field (becs_set_metadata P (some tab) (some key) none g) key_user
        = document_field g key_user ∧
      (∀ t0, metadata_tab g tab = some (JSON_Value.object t0) →
        ∃ t1, metadata_tab (becs_set_metadata P (some tab) (some key) none g) tab
          = some (JSON_Value.object t1)) := by
  have hok := installed_context_ok h
  obtain ⟨root, m, hd, hnd, hm, htabs, hd2⟩ := set_metadata_data P g tab key none hok
  obtain ⟨k1, k2, k3, k4, k5, k6⟩ := key_facts
  rw [dot_split_plain tab key htab hkey] at hd2
  simp only [metadata_update] at hd2
  have hmeta : document_field g key_metadata = some (JSON_Value.object m) := by
    rw [document_field_of_data hd, hm]
  have hfield : ∀ k, k ≠ key_metadata →
      document_field (becs_set_metadata P (some tab) (some key) none g) k
        = document_field g k := by
    intro k hk
    rw [document_field_of_data hd2, get_replace_ne _ _ hk, document_field_of_data hd]
  have hmeta2 : document_field (becs_set_metadata P (some tab) (some key) none g) key_metadata
      = some (JSON_Value.object ((json_object_dotremove_path m [tab, key]).getD m)) := by
    rw [document_field_of_data hd2, get_replace_same _ _ hm]
  refine ⟨?_, ?_, ?_, hfield _ k1, hfield _ (Ne.symm k5), hfield _ (Ne.symm k4), ?_⟩
  · rcases dotremove_two m tab key htabs with ⟨e, hnone⟩ | ⟨t, hg, htnd, e⟩
    · simp [metadata_entry, hmeta2, e, json_value_get_object, hnone]
    · simp [metadata_entry, hmeta2, e, json_value_get_object, get_replace_same _ _ hg,
        get_remove_getD_same t key htnd]
  · intro k hk
    rcases dotremove_two m tab key htabs with ⟨e, hnone⟩ | ⟨t, hg, htnd, e⟩
    · simp [metadata_entry, hmeta2, hmeta, e]
    · simp [metadata_entry, hmeta2, hmeta, e, json_value_get_object, get_replace_same _ _ hg,
        hg, get_remove_getD_ne t htnd hk]
  · intro t0 ht0
    rcases dotremove_two m tab key htabs with ⟨e, hnone⟩ | ⟨t, hg, htnd, e⟩
    · simp [metadata_tab, hmeta2, hmeta, e]
    · simp [metadata_tab, hmeta2, hmeta, e, json_value_get_object, get_replace_ne _ _ ht0]
  · intro t0 ht0
    rcases dotremove_two m tab key htabs with ⟨e, hnone⟩ | ⟨t, hg, htnd, e⟩
    · simp [metadata_tab, hmeta, json_value_get_object, hnone] at ht0
    · exact ⟨(json_object_remove t key).getD t, by
        simp [metadata_tab, hmeta2, e, json_value_get_object, get_replace_same _ _ hg]⟩

theorem becs_clear_metadata_removes_one_path_witness :
    metadata_entry (becs_set_metadata sample_parson (some "device") (some "battery") none
        (becs_set_metadata sample_parson (some "device") (some "battery")
          (some "\x7b\"level\":80\x7d") (becs_install sample_parson "state.json" 3 g_context)))
        "device" "battery" = none ∧
      metadata_tab (becs_set_metadata sample_parson (some "device") (some "battery") none
        (becs_set_metadata sample_parson (some "device") (some "battery")
          (some "\x7b\"level\":80\x7d") (becs_install sample_parson "state.json" 3 g_context)))
        "device" = some (JSON_Value.object []) :=
  ⟨(becs_clear_metadata_removes_one_path sample_parson
      (becs_set_metadata sample_parson (some "device") (some "battery")
        (some "\x7b\"level\":80\x7d") (becs_install sample_parson "state.json" 3 g_context))
      "device" "battery"
      (Installed.call (becs_call.set_metadata (some "device") (some "battery")
        (some "\x7b\"level\":80\x7d")) (Installed.install "state.json" 3))
      (by decide) (by decide)).1, by decide⟩

/-- C7 fails as stated: clearing with the tab "a.b" and the key "c" removes `metadata.a.b.c`,
which changes the tab "a", a tab other than "a.b". -/
theorem becs_clear_metadata_dotted_tab_counterexample :
    ¬ (∀ t, t ≠ "a.b" →
        metadata_tab (becs_set_metadata sample_parson (some "a.b") (some "c") none
          (becs_set_metadata sample_parson (some "a") (some "b") (some "\x7b\"c\":1\x7d")
            (becs_install sample_parson "state.json" 3 g_context))) t
        = metadata_tab
          (becs_set_metadata sample_parson (some "a") (some "b") (some "\x7b\"c\":1\x7d")
            (becs_install sample_parson "state.json" 3 g_context)) t) := by
  intro hall
  have h := hall "a" (by decide)
  revert h
  decide

/-! ## A context string larger than the buffer -/

theorem sample_escape_length (l : List Char) : l.length ≤ (sample_escape l).length := by
  induction l with
  | nil => simp [sample_escape]
  | cons c cs ih =>
    simp only [sample_escape, List.length_append, List.length_cons]
    have : 1 ≤ (if c = Char.ofNat 34 then [Char.ofNat 92, Char.ofNat 34]
        else if c = Char.ofNat 92 then [Char.ofNat 92, Char.ofNat 92]
        else if c = '/' then [Char.ofNat 92, '/']
        else if c = Char.ofNat 8 then [Char.ofNat 92, 'b']
        else if c = Char.ofNat 12 then [Char.ofNat 92, 'f']
        else if c = Char.ofNat 10 then [Char.ofNat 92, 'n']
        else if c = Char.ofNat 13 then [Char.ofNat 92, 'r']
        else if c = Char.ofNat 9 then [Char.ofNat 92, 't']
        else if c.toNat < 32 then
          [Char.ofNat 92, 'u', '0', '0', Nat.digitChar (c.toNat / 16),
            Nat.digitChar (c.toNat % 16)]
        else [c]).length := by
      repeat' split
      all_goals simp
    omega

/-- With the sample serializer, a context string of at least 1 MiB makes the document too large
for the buffer. -/
theorem sample_long_context_overflows (context : String)
    (hlong : BECS_SERIALIZED_DATA_LEN ≤ context.data.length) :
    ¬ fits_buffer sample_parson
        (becs_apply sample_parson (becs_install sample_parson "state.json" 3 g_context)
          (becs_call.set_context (some context))) := by
  have hd : (becs_apply sample_parson (becs_install sample_parson "state.json" 3 g_context)
      (becs_call.set_context (some context))).data
      = some (JSON_Value.object
          [(key_breadcrumbs, JSON_Value.array []), (key_metadata, JSON_Value.object []),
           (key_user, JSON_Value.object []), (key_context, JSON_Value.string context)]) := rfl
  rw [fits_buffer_iff _ _ hd]
  have hl := sample_escape_length context.data
  simp only [json_serialization_size, sample_parson, sample_serialize, sample_serialize_cells,
    sample_quote, List.length_append, List.length_cons, List.length_nil]
  omega

theorem capacity_exceeded_overwrites_length_witness :
    (becs_apply sample_parson (becs_install sample_parson "state.json" 3 g_context)
        (becs_call.set_context (some (String.mk (List.replicate 1048576 'a'))))).serialized_data
      = (becs_install sample_parson "state.json" 3 g_context).serialized_data ∧
    (becs_install sample_parson "state.json" 3 g_context).serialized_data_len
      < BECS_SERIALIZED_DATA_LEN ∧
    BECS_SERIALIZED_DATA_LEN ≤
      (becs_apply sample_parson (becs_install sample_parson "state.json" 3 g_context)
        (becs_call.set_context
          (some (String.mk (List.replicate 1048576 'a'))))).serialized_data_len :=
  have h := capacity_exceeded_overwrites_length sample_parson
    (becs_install sample_parson "state.json" 3 g_context)
    (becs_call.set_context (some (String.mk (List.replicate 1048576 'a'))))
    (InstalledFitting.install "state.json" 3 (by decide))
    (sample_long_context_overflows _ (by rw [List.length_replicate]; decide))
  ⟨h.1, h.2.2.1, h.2.2.2⟩
